import Mathlib

/-!
Verification of the Minesweeper knowledge-base inference engine
(`Sentence` and `MinesweeperAI` in minesweeper.py) against its
natural-language specification.

The embedding is a direct transliteration of the Python source:

* a board cell is an integer pair (Python tuples of ints, so `ℤ × ℤ`);
* `Sentence` holds a finite set of cells and an integer count;
* the engine state `AIState` holds the grid dimensions, the three
  monotone cell sets (`moves_made`, `mines`, `safes`) and the list
  `knowledge` of sentences;
* `add_knowledge` is split into `ingest` (steps 1-5: record the move,
  mark it safe, build the neighbourhood, and append the new sentence)
  followed by the while-loop, modelled by `loopFuel`: each pass is
  `onePass`, consisting of `phase1` (per-sentence marking, removal of
  resolved sentences, and the ValueError on an empty sentence with a
  nonzero count) and `deriveNew` (the subset-derivation sweep).

Python mutates `Sentence` objects in place while iterating over a copy
of the knowledge list.  Every mutation goes through the engine-level
`mark_mine` and `mark_safe`, which update every sentence currently in
`self.knowledge` uniformly, so the aliasing is modelled by value: the
pending (not yet processed) part of the iteration copy is threaded
through `phase1` and receives every mark exactly as the originals do.
`list.remove` deletes the first value-equal element, modelled by
`List.erase`.  Iteration order over Python sets is fixed by sorting
cells in lexicographic order; all marking folds are order-insensitive.
-/

/-- A board cell: a (row, column) pair of integers. -/
abbrev Cell := ℤ × ℤ

/-- Lexicographic order on cells, used to fix an iteration order for
Python set iteration. -/
def cellLE (x y : Cell) : Prop := x.1 < y.1 ∨ (x.1 = y.1 ∧ x.2 ≤ y.2)

instance : DecidableRel cellLE := fun x y =>
  decidable_of_iff (x.1 < y.1 ∨ (x.1 = y.1 ∧ x.2 ≤ y.2)) Iff.rfl

instance : IsTrans Cell cellLE :=
  ⟨fun a b c hab hbc => by simp only [cellLE] at *; omega⟩

instance : IsAntisymm Cell cellLE :=
  ⟨fun a b hab hba => by
    obtain ⟨a1, a2⟩ := a
    obtain ⟨b1, b2⟩ := b
    simp only [cellLE] at *
    simp only [Prod.mk.injEq]
    omega⟩

instance : IsTotal Cell cellLE :=
  ⟨fun a b => by simp only [cellLE]; omega⟩

/-- The fixed iteration order for Python set iteration: the cells of a
finite set listed in lexicographic order.  Insertion sort recurses
structurally, so concrete runs reduce inside the kernel; the sorted
list of a multiset is independent of the representative. -/
def sortCells (s : Finset Cell) : List Cell :=
  Quot.liftOn s.val (fun l => List.insertionSort cellLE l)
    (fun a b h =>
      List.eq_of_perm_of_sorted
        ((List.perm_insertionSort cellLE a).trans
          ((Quotient.exact (Quotient.sound h)).trans
            (List.perm_insertionSort cellLE b).symm))
        (List.sorted_insertionSort cellLE a)
        (List.sorted_insertionSort cellLE b))

/-- `class Sentence`: a set of board cells together with a count of how
many of them are mines.  Equality is by value (`__eq__` compares the
cell set and the count). -/
structure Sentence where
  cells : Finset Cell
  count : ℤ
deriving DecidableEq

namespace Sentence

/-- `Sentence.known_mines`: all cells are mines when the number of cells
equals the count and the count is positive. -/
def known_mines (s : Sentence) : Finset Cell :=
  if (s.cells.card : ℤ) = s.count ∧ 0 < s.count then s.cells else ∅

/-- `Sentence.known_safes`: all cells are safe when the count is zero
and the cell set is non-empty. -/
def known_safes (s : Sentence) : Finset Cell :=
  if s.count = 0 ∧ 0 < s.cells.card then s.cells else ∅

/-- `Sentence.mark_mine`: remove the cell and decrement the count when
the cell occurs in the sentence, otherwise do nothing. -/
def mark_mine (s : Sentence) (c : Cell) : Sentence :=
  if c ∈ s.cells then { cells := s.cells.erase c, count := s.count - 1 } else s

/-- `Sentence.mark_safe`: remove the cell, leaving the count unchanged,
when the cell occurs in the sentence, otherwise do nothing. -/
def mark_safe (s : Sentence) (c : Cell) : Sentence :=
  if c ∈ s.cells then { cells := s.cells.erase c, count := s.count } else s

end Sentence

/-- The state owned by `class MinesweeperAI`: grid dimensions, the cells
already clicked, the known mines, the known safes, and the list of
sentences. -/
structure AIState where
  height : ℤ
  width : ℤ
  moves_made : Finset Cell
  mines : Finset Cell
  safes : Finset Cell
  knowledge : List Sentence
deriving DecidableEq

/-- `MinesweeperAI.__init__`: fresh engine with empty sets and no
sentences. -/
def initState (height width : ℤ) : AIState :=
  { height := height, width := width, moves_made := ∅, mines := ∅,
    safes := ∅, knowledge := [] }

namespace AIState

/-- `MinesweeperAI.mark_mine`: add the cell to the known mines and
narrow every sentence currently held. -/
def mark_mine (st : AIState) (c : Cell) : AIState :=
  { st with mines := insert c st.mines,
            knowledge := st.knowledge.map (fun s => s.mark_mine c) }

/-- `MinesweeperAI.mark_safe`: add the cell to the known safes and
narrow every sentence currently held. -/
def mark_safe (st : AIState) (c : Cell) : AIState :=
  { st with safes := insert c st.safes,
            knowledge := st.knowledge.map (fun s => s.mark_safe c) }

end AIState

/-- The 8-connected neighbourhood of a cell clipped to the grid bounds,
excluding the cell itself (the nested loops over `i_surrounding` and
`j_surrounding` in `add_knowledge`). -/
def surroundingCells (height width : ℤ) (c : Cell) : Finset Cell :=
  (Finset.product {c.1 - 1, c.1, c.1 + 1} {c.2 - 1, c.2, c.2 + 1}).filter
    (fun p => p ≠ c ∧ 0 ≤ p.1 ∧ p.1 < height ∧ 0 ≤ p.2 ∧ p.2 < width)

/-- The `unknown_cells` of `add_knowledge`: surrounding cells in none of
`moves_made`, `mines`, `safes`. -/
def unknownCells (st : AIState) (c : Cell) : Finset Cell :=
  (surroundingCells st.height st.width c).filter
    (fun x => x ∉ st.moves_made ∧ x ∉ st.mines ∧ x ∉ st.safes)

/-- The `adjusted_count` of `add_knowledge`.  The elif branch fires for
a surrounding cell exactly when it lies in `self.mines` (membership in
`mines` falsifies the first test), so the decrement total is the number
of surrounding cells in `mines`. -/
def adjustedCount (st : AIState) (c : Cell) (count : ℤ) : ℤ :=
  count - ((surroundingCells st.height st.width c).filter
    (fun x => x ∈ st.mines)).card

/-- Steps 1 and 2 of `add_knowledge`: record the move and mark the
observed cell safe.  The neighbourhood partition of step 4 reads the
sets of this state. -/
def preState (st : AIState) (cell : Cell) : AIState :=
  AIState.mark_safe { st with moves_made := insert cell st.moves_made } cell

/-- Steps 1-5 of `add_knowledge`, before the while loop: record the
move, mark the cell safe, and append the sentence over the unresolved
neighbours when there are any. -/
def ingest (st : AIState) (cell : Cell) (count : ℤ) : AIState :=
  let st2 := preState st cell
  let unknown := unknownCells st2 cell
  let adjusted := adjustedCount st2 cell count
  if unknown = ∅ then st2
  else { st2 with knowledge :=
          st2.knowledge ++ [{ cells := unknown, count := adjusted }] }

/-- One guarded mark from the `known_mines` sweep of the loop: mark the
cell as a mine only when it is not already known, setting the updated
flag.  The sentence being processed and the pending part of the
iteration copy are narrowed exactly as the engine-held originals are. -/
def mineStep (q : AIState × Sentence × List Sentence × Bool) (m : Cell) :
    AIState × Sentence × List Sentence × Bool :=
  if m ∈ q.1.mines then q
  else (q.1.mark_mine m, q.2.1.mark_mine m,
        q.2.2.1.map (fun t => t.mark_mine m), true)

/-- One guarded mark from the `known_safes` sweep of the loop. -/
def safeStep (q : AIState × Sentence × List Sentence × Bool) (m : Cell) :
    AIState × Sentence × List Sentence × Bool :=
  if m ∈ q.1.safes then q
  else (q.1.mark_safe m, q.2.1.mark_safe m,
        q.2.2.1.map (fun t => t.mark_safe m), true)

/-- One unconditional mine mark from the `len(cells) == count` branch of
the loop. -/
def mineStepAll (p : AIState × List Sentence) (m : Cell) :
    AIState × List Sentence :=
  (p.1.mark_mine m, p.2.map (fun t => t.mark_mine m))

/-- One unconditional safe mark from the `count == 0` branch of the
loop. -/
def safeStepAll (p : AIState × List Sentence) (m : Cell) :
    AIState × List Sentence :=
  (p.1.mark_safe m, p.2.map (fun t => t.mark_safe m))

/-- The body of the first half of a pass, for one sentence of the
iteration copy: the two guarded marking sweeps, then the
empty-sentence check (removal when the count is zero, the ValueError
otherwise), then the two unconditional marking branches. -/
def stepSentence (st : AIState) (s : Sentence) (rest : List Sentence)
    (upd : Bool) : Except Unit (AIState × List Sentence × Bool) :=
  match (sortCells s.known_mines).foldl mineStep (st, s, rest, upd) with
  | (st1, s1, rest1, upd1) =>
    match (sortCells s1.known_safes).foldl safeStep (st1, s1, rest1, upd1) with
    | (st2, s2, rest2, upd2) =>
      if s2.cells = ∅ then
        if s2.count = 0 then
          Except.ok ({ st2 with knowledge := st2.knowledge.erase s2 },
                     rest2, true)
        else Except.error ()
      else if (s2.cells.card : ℤ) = s2.count then
        match (sortCells s2.cells).foldl mineStepAll (st2, rest2) with
        | (st3, rest3) => Except.ok (st3, rest3, true)
      else if s2.count = 0 then
        match (sortCells s2.cells).foldl safeStepAll (st2, rest2) with
        | (st3, rest3) => Except.ok (st3, rest3, true)
      else Except.ok (st2, rest2, upd2)

/-- The first half of a pass: process every sentence of the iteration
copy in order.  The fuel argument is always the length of the pending
list (marking preserves list lengths), giving structural recursion. -/
def phase1 : ℕ → AIState → List Sentence → Bool →
    Except Unit (AIState × Bool)
  | _, st, [], upd => Except.ok (st, upd)
  | 0, st, _ :: _, upd => Except.ok (st, upd)
  | n + 1, st, s :: rest, upd =>
    match stepSentence st s rest upd with
    | Except.error e => Except.error e
    | Except.ok (st2, rest2, upd2) => phase1 n st2 rest2 upd2

/-- The body of the subset-derivation sweep for a fixed pair: when the
comparative cells are a strict subset, build the difference sentence and
append it unless it already occurs in the knowledge base or among the
sentences derived this pass. -/
def deriveStep (K : List Sentence) (s : Sentence) (acc : List Sentence)
    (c : Sentence) : List Sentence :=
  if c.cells ⊂ s.cells then
    let d : Sentence := { cells := s.cells \ c.cells, count := s.count - c.count }
    if d ∉ K ∧ d ∉ acc then acc ++ [d] else acc
  else acc

/-- The subset-derivation sweep of a pass (`new_knowledge`). -/
def deriveNew (K : List Sentence) : List Sentence :=
  K.foldl (fun acc s => K.foldl (deriveStep K s) acc) []

/-- One full pass of the while loop of `add_knowledge`: the marking and
removal sweep over a copy of the knowledge list, then the
subset-derivation sweep, whose results are appended.  The Bool is the
`updated` flag. -/
def onePass (st : AIState) : Except Unit (AIState × Bool) :=
  match phase1 st.knowledge.length st st.knowledge false with
  | Except.error e => Except.error e
  | Except.ok (st1, upd1) =>
    let nk := deriveNew st1.knowledge
    Except.ok ({ st1 with knowledge := st1.knowledge ++ nk },
               upd1 || !nk.isEmpty)

/-- The while loop of `add_knowledge`, run with fuel: `none` means the
fuel ran out before the loop finished, `some (Except.error ())` means
the ValueError was raised, `some (Except.ok st)` means a pass completed
with no change and the loop exited in state `st`. -/
def loopFuel : ℕ → AIState → Option (Except Unit AIState)
  | 0, _ => none
  | n + 1, st =>
    match onePass st with
    | Except.error _ => some (Except.error ())
    | Except.ok (st1, true) => loopFuel n st1
    | Except.ok (st1, false) => some (Except.ok st1)

/-- `MinesweeperAI.add_knowledge`: the ingestion steps followed by the
propagation loop. -/
def add_knowledge (fuel : ℕ) (st : AIState) (cell : Cell) (count : ℤ) :
    Option (Except Unit AIState) :=
  loopFuel fuel (ingest st cell count)

/-- `MinesweeperAI.make_safe_move`.  `random.choice` returns an
arbitrary element of the non-empty list, modelled by the `pick`
parameter; no field of the state is assigned, so the state component of
the result is the input state. -/
def make_safe_move (pick : List Cell → Cell) (st : AIState) :
    Option Cell × AIState :=
  let safe_moves := sortCells (st.safes \ st.moves_made)
  if safe_moves = [] then (none, st) else (some (pick safe_moves), st)

/-- `MinesweeperAI.make_random_move`: all grid cells in row-major order
that are neither moves already made nor known mines; `random.choice`
is again the `pick` parameter. -/
def make_random_move (pick : List Cell → Cell) (st : AIState) :
    Option Cell × AIState :=
  let possible_moves :=
    (((List.range st.height.toNat).product (List.range st.width.toNat)).map
      (fun p => ((p.1 : ℤ), (p.2 : ℤ)))).filter
      (fun m => !(decide (m ∈ st.moves_made) || decide (m ∈ st.mines)))
  if possible_moves = [] then (none, st) else (some (pick possible_moves), st)

/-- Extract the state of a normally completed `add_knowledge` run:
`none` when the fuel ran out or the ValueError was raised. -/
def okOrDefault (r : Option (Except Unit AIState)) : Option AIState :=
  match r with
  | some (Except.ok st) => some st
  | _ => none

/-- Whether a run ended in the raised ValueError. -/
def isErr (r : Option (Except Unit AIState)) : Bool :=
  match r with
  | some (Except.error _) => true
  | _ => false

/-- The knowledge list of an optional state (empty list as default). -/
def knowledgeOf (o : Option AIState) : List Sentence :=
  o.elim [] AIState.knowledge

/-- The known-mine set of an optional state (empty set as default). -/
def minesOf (o : Option AIState) : Finset Cell :=
  o.elim ∅ AIState.mines

/-- The known-safe set of an optional state (empty set as default). -/
def safesOf (o : Option AIState) : Finset Cell :=
  o.elim ∅ AIState.safes

/-- The moves-made set of an optional state (empty set as default). -/
def movesOf (o : Option AIState) : Finset Cell :=
  o.elim ∅ AIState.moves_made

/-- The state after one complete pass of the propagation loop, `none`
when the pass raised. -/
def passOk (st : AIState) : Option AIState :=
  match onePass st with
  | Except.ok (st', _) => some st'
  | Except.error _ => none

/-- The three cells of the subset-derivation scenario. -/
def aC : Cell := (0, 0)

/-- Second cell of the subset-derivation scenario. -/
def bC : Cell := (0, 1)

/-- Third cell of the subset-derivation scenario. -/
def cC : Cell := (0, 2)

/-- Engine state for the subset-derivation scenario: a 5 by 5 grid whose
knowledge base holds A = {a,b,c} with count 2 and B = {a,b} with
count 1; the neighbours of the observed corner (4,4) are already safe,
so the observation disturbs nothing. -/
def st_c1 : AIState :=
  { height := 5, width := 5, moves_made := ∅, mines := ∅,
    safes := {(3, 3), (3, 4), (4, 3)},
    knowledge := [⟨{aC, bC, cC}, 2⟩, ⟨{aC, bC}, 1⟩] }

/-- Engine state for the negative-count scenario: a 2 by 2 grid where
(0,1) is already a known mine, so observing (0,0) with count 0 drives
the effective count to -1. -/
def st_c4 : AIState :=
  { height := 2, width := 2, moves_made := ∅, mines := {(0, 1)},
    safes := ∅, knowledge := [] }

/-- Knowledge base on which the propagation loop diverges: the two
equal-cell sentences {a,b} = 7 and {a,b} = 4 disagree, and together
with {a} = 2 the subset rule keeps deriving singleton sentences with
ever new counts, all congruent to 2 modulo 3. -/
def badK : List Sentence := [⟨{aC}, 2⟩, ⟨{aC, bC}, 7⟩, ⟨{aC, bC}, 4⟩]

/-- Engine state for the divergence scenario: a 3 by 3 grid holding
`badK`; the neighbours of the observed corner (2,2) are already safe,
so the observation adds no sentence. -/
def st_c3 : AIState :=
  { height := 3, width := 3, moves_made := {(2, 2)}, mines := ∅,
    safes := {(1, 1), (1, 2), (2, 1), (2, 2)}, knowledge := badK }

/-- The first chained-observation state of the duplicate scenario. -/
def c5_mid : Option AIState :=
  okOrDefault (add_knowledge 5 (initState 2 3) (0, 1) 1)

/-- The second chained-observation state of the duplicate scenario:
two consistent observes on a fresh 2 by 3 engine. -/
def c5_final : Option AIState :=
  c5_mid.elim none (fun st1 => okOrDefault (add_knowledge 5 st1 (1, 1) 1))

/-- A sentence is sound for a mine assignment when its count equals the
number of its cells that carry a mine. -/
def SentSound (μ : Finset Cell) (s : Sentence) : Prop :=
  ((s.cells.filter (fun c => c ∈ μ)).card : ℤ) = s.count

/-- An engine state is sound for a mine assignment: every known mine is
a mine, no known safe or probed cell is a mine, and every sentence is
sound. -/
def Sound (μ : Finset Cell) (st : AIState) : Prop :=
  st.mines ⊆ μ ∧ (∀ c ∈ st.safes, c ∉ μ) ∧ (∀ c ∈ st.moves_made, c ∉ μ) ∧
    ∀ s ∈ st.knowledge, SentSound μ s

/-- The states reachable from a fresh engine by `add_knowledge` calls
whose counts are consistent with one fixed mine assignment: each
observed cell is truly safe and each reported count is the true number
of mines among its in-bounds neighbours. -/
inductive Reachable (h w : ℤ) (μ : Finset Cell) : AIState → Prop where
  | init : Reachable h w μ (initState h w)
  | observe (st st' : AIState) (cell : Cell) (fuel : ℕ) :
      Reachable h w μ st → cell ∉ μ →
      add_knowledge fuel st cell
        (((surroundingCells st.height st.width cell).filter
          (fun c => c ∈ μ)).card) = some (Except.ok st') →
      Reachable h w μ st'

/-- A sentence the propagation pass leaves untouched: both deduction
queries are empty, the cell set is non-empty, and neither unconditional
marking branch fires. -/
def Inert (s : Sentence) : Prop :=
  s.known_mines = ∅ ∧ s.known_safes = ∅ ∧ s.cells ≠ ∅ ∧
    (s.cells.card : ℤ) ≠ s.count ∧ s.count ≠ 0

/-- The invariant of the divergence scenario: every sentence is either a
singleton over a or b with count congruent 2 modulo 3, or the pair
{a,b} with count 7 or 4; and the three starting sentences are present. -/
def BadInv (K : List Sentence) : Prop :=
  (∀ s ∈ K, ((s.cells = {aC} ∨ s.cells = {bC}) ∧ s.count % 3 = 2) ∨
    (s.cells = {aC, bC} ∧ (s.count = 7 ∨ s.count = 4))) ∧
  (⟨{aC}, 2⟩ : Sentence) ∈ K ∧ (⟨{aC, bC}, 7⟩ : Sentence) ∈ K ∧
  (⟨{aC, bC}, 4⟩ : Sentence) ∈ K

/-- The three monotone sets of the first state are contained in those
of the second. -/
def SetsMono (a b : AIState) : Prop :=
  a.moves_made ⊆ b.moves_made ∧ a.mines ⊆ b.mines ∧ a.safes ⊆ b.safes

/-! ### Basic facts about the iteration order -/

theorem mem_sortCells {s : Finset Cell} {c : Cell} :
    c ∈ sortCells s ↔ c ∈ s := by
  rcases s with ⟨val, nd⟩
  revert nd
  induction val using Quot.inductionOn with
  | h l =>
    intro nd
    show c ∈ List.insertionSort cellLE l ↔ _
    rw [(List.perm_insertionSort cellLE l).mem_iff]
    exact Iff.rfl

theorem sortCells_nodup (s : Finset Cell) : (sortCells s).Nodup := by
  rcases s with ⟨val, nd⟩
  revert nd
  induction val using Quot.inductionOn with
  | h l =>
    intro nd
    exact ((List.perm_insertionSort cellLE l).nodup_iff).mpr
      (Multiset.coe_nodup.mp nd)

theorem sortCells_length (s : Finset Cell) : (sortCells s).length = s.card := by
  rcases s with ⟨val, nd⟩
  revert nd
  induction val using Quot.inductionOn with
  | h l =>
    intro nd
    exact (List.perm_insertionSort cellLE l).length_eq

theorem sortCells_eq_nil {s : Finset Cell} : sortCells s = [] ↔ s = ∅ := by
  rw [List.eq_nil_iff_forall_not_mem, Finset.eq_empty_iff_forall_not_mem]
  exact forall_congr' (fun c => not_congr mem_sortCells)

theorem sortCells_empty : sortCells ∅ = [] := sortCells_eq_nil.mpr rfl

/-! ### Basic facts about sentence narrowing -/

theorem Sentence.mark_mine_of_empty {s : Sentence} (h : s.cells = ∅)
    (c : Cell) : s.mark_mine c = s := by
  simp [Sentence.mark_mine, h]

theorem Sentence.mark_safe_of_empty {s : Sentence} (h : s.cells = ∅)
    (c : Cell) : s.mark_safe c = s := by
  simp [Sentence.mark_safe, h]

/-- Folding preserves any invariant preserved by each step. -/
theorem foldlInv {α : Type*} {β : Type*} (P : α → Prop) (f : α → β → α)
    (h : ∀ a b, P a → P (f a b)) :
    ∀ (l : List β) (a : α), P a → P (l.foldl f a) := by
  intro l
  induction l with
  | nil => exact fun a ha => ha
  | cons x xs ih => exact fun a ha => ih _ (h a x ha)

/-! ### C10: the two deduction queries of a sentence are mutually
exclusive -/

/-- C10: for every Statement the two deduction queries are mutually
exclusive: `known_mines` and `known_safes` are never both non-empty;
`known_mines` is non-empty only when the count is positive, and
`known_safes` only when the count is zero. -/
theorem c10_queries_mutually_exclusive (s : Sentence) :
    (s.known_mines = ∅ ∨ s.known_safes = ∅) ∧
    (s.known_mines = ∅ ∨ 0 < s.count) ∧
    (s.known_safes = ∅ ∨ s.count = 0) := by
  unfold Sentence.known_mines Sentence.known_safes
  split_ifs with h1 h2 h2 <;>
    refine ⟨?_, ?_, ?_⟩ <;> simp_all

/-! ### C9: the safe-move query -/

/-- C9: `make_safe_move` returns nothing exactly when no known-safe
cell is unprobed, otherwise returns a known-safe unprobed cell, and in
every case leaves the whole engine state unchanged. -/
theorem c9_safe_move_pure (pick : List Cell → Cell) (st : AIState)
    (hpick : ∀ l : List Cell, l ≠ [] → pick l ∈ l) :
    ((make_safe_move pick st).1 = none ↔ st.safes \ st.moves_made = ∅) ∧
    (∀ c : Cell, (make_safe_move pick st).1 = some c →
      c ∈ st.safes ∧ c ∉ st.moves_made) ∧
    (make_safe_move pick st).2 = st := by
  unfold make_safe_move
  by_cases h : sortCells (st.safes \ st.moves_made) = []
  · refine ⟨?_, ?_, by simp [h]⟩
    · simp only [h, if_pos rfl]
      simpa using sortCells_eq_nil.mp h
    · intro c hc
      simp only [h, if_pos rfl] at hc
      exact absurd hc (by simp)
  · refine ⟨?_, ?_, by simp [h]⟩
    · simp only [if_neg h]
      constructor
      · intro hnone; exact absurd hnone (by simp)
      · intro hempty
        exact absurd (sortCells_eq_nil.mpr hempty) h
    · intro c hc
      simp only [if_neg h] at hc
      have : pick (sortCells (st.safes \ st.moves_made)) ∈
          sortCells (st.safes \ st.moves_made) := hpick _ h
      rw [Option.some_inj] at hc
      subst hc
      have hmem := mem_sortCells.mp this
      exact Finset.mem_sdiff.mp hmem

/-- Witness for C9 at a concrete picker and state. -/
theorem c9_safe_move_pure_witness :
    ((make_safe_move (fun l => l.headD (0, 0)) (initState 2 2)).1 = none ↔
      (initState 2 2).safes \ (initState 2 2).moves_made = ∅) ∧
    (∀ c : Cell,
      (make_safe_move (fun l => l.headD (0, 0)) (initState 2 2)).1 = some c →
      c ∈ (initState 2 2).safes ∧ c ∉ (initState 2 2).moves_made) ∧
    (make_safe_move (fun l => l.headD (0, 0)) (initState 2 2)).2 =
      initState 2 2 :=
  c9_safe_move_pure (fun l => l.headD (0, 0)) (initState 2 2)
    (fun l h => by
      cases l with
      | nil => exact absurd rfl h
      | cons a t => exact List.mem_cons_self a t)

/-! ### C7: out-of-bounds observations are accepted, not rejected -/

/-- C7 counterexample: observing the out-of-bounds cell (5,5) on a
fresh 2 by 2 engine is not rejected: the call returns normally, the
cell is added to the moves-made and known-safe sets, and the clipped
neighbourhood is empty so no sentence is added. -/
theorem c7_counterexample :
    isErr (add_knowledge 3 (initState 2 2) (5, 5) 0) = false ∧
    (okOrDefault (add_knowledge 3 (initState 2 2) (5, 5) 0)).isSome = true ∧
    movesOf (okOrDefault (add_knowledge 3 (initState 2 2) (5, 5) 0)) =
      {(5, 5)} ∧
    safesOf (okOrDefault (add_knowledge 3 (initState 2 2) (5, 5) 0)) =
      {(5, 5)} ∧
    knowledgeOf (okOrDefault (add_knowledge 3 (initState 2 2) (5, 5) 0)) =
      [] := by decide

/-- C7 amended: `add_knowledge` accepts every cell, in bounds or not:
the observed cell is always added to the moves-made and known-safe
sets, and the neighbourhood used for the new sentence is silently
clipped to the grid bounds. -/
theorem c7_amended (st : AIState) (cell : Cell) (count : ℤ) :
    cell ∈ (ingest st cell count).moves_made ∧
    cell ∈ (ingest st cell count).safes ∧
    ∀ d ∈ surroundingCells st.height st.width cell,
      0 ≤ d.1 ∧ d.1 < st.height ∧ 0 ≤ d.2 ∧ d.2 < st.width := by
  refine ⟨?_, ?_, ?_⟩
  · simp only [ingest, preState, AIState.mark_safe]
    split_ifs <;> simp
  · simp only [ingest, preState, AIState.mark_safe]
    split_ifs <;> simp
  · intro d hd
    unfold surroundingCells at hd
    rw [Finset.mem_filter] at hd
    exact hd.2.2

/-! ### C4: a negative effective count is stored, not rejected -/

/-- C4 counterexample: on a 2 by 2 grid with (0,1) already a known
mine, observing (0,0) with count 0 makes the effective count -1; the
call does not raise but returns normally with the negative-count
sentence {(1,0),(1,1)} = -1 stored in the knowledge base. -/
theorem c4_counterexample :
    isErr (add_knowledge 3 st_c4 (0, 0) 0) = false ∧
    knowledgeOf (okOrDefault (add_knowledge 3 st_c4 (0, 0) 0)) =
      [⟨{(1, 0), (1, 1)}, -1⟩] := by decide

/-- C4 amended: `add_knowledge` performs no negativity check at
ingestion: whenever unresolved neighbours remain and the effective
count is negative, the negative-count statement is stored in the
knowledge base (the ingestion steps cannot raise). -/
theorem c4_amended (st : AIState) (cell : Cell) (count : ℤ)
    (h1 : unknownCells (preState st cell) cell ≠ ∅)
    (h2 : adjustedCount (preState st cell) cell count < 0) :
    ∃ s ∈ (ingest st cell count).knowledge, s.count < 0 := by
  refine ⟨⟨unknownCells (preState st cell) cell,
           adjustedCount (preState st cell) cell count⟩, ?_, h2⟩
  simp only [ingest, if_neg h1]
  simp

/-- Witness for C4 amended at the concrete negative-count scenario. -/
theorem c4_amended_witness :
    (unknownCells (preState st_c4 (0, 0)) (0, 0) ≠ ∅ ∧
     adjustedCount (preState st_c4 (0, 0)) (0, 0) 0 < 0) ∧
    ∃ s ∈ (ingest st_c4 (0, 0) 0).knowledge, s.count < 0 :=
  ⟨⟨by decide, by decide⟩, c4_amended st_c4 (0, 0) 0 (by decide) (by decide)⟩

/-! ### C1: the subset-derivation scenario -/

/-- C1: with A = {a,b,c} count 2 and B = {a,b} count 1 in the knowledge
base, the first pass of the propagation loop derives the sentence
{c} = 1 by the subset rule, and `add_knowledge` returns normally with
cell c in the known-mine set. -/
theorem c1_subset_derivation :
    (⟨{cC}, 1⟩ : Sentence) ∈ knowledgeOf (passOk (ingest st_c1 (4, 4) 0)) ∧
    (okOrDefault (add_knowledge 6 st_c1 (4, 4) 0)).isSome = true ∧
    minesOf (okOrDefault (add_knowledge 6 st_c1 (4, 4) 0)) = {cC} ∧
    knowledgeOf (okOrDefault (add_knowledge 6 st_c1 (4, 4) 0)) =
      [⟨{aC, bC}, 1⟩, ⟨{aC, bC}, 1⟩] ∧
    cC ∈ minesOf (okOrDefault (add_knowledge 6 st_c1 (4, 4) 0)) := by decide

/-! ### C5: the knowledge list can hold value-equal duplicates -/

/-- C5 counterexample: two observations on a fresh 2 by 3 engine reach
a state whose statements collection holds two value-equal sentences:
observe (0,1) with count 1, then (1,1) with count 1; the step-5 append
of the second call does not check for duplicates. -/
theorem c5_counterexample :
    knowledgeOf c5_final =
      [⟨{(0, 0), (0, 2), (1, 0), (1, 2)}, 1⟩,
       ⟨{(0, 0), (0, 2), (1, 0), (1, 2)}, 1⟩] ∧
    ¬ (knowledgeOf c5_final).Nodup ∧ c5_final.isSome = true := by decide

/-- C5 amended: only the subset-derivation sweep deduplicates: the
sentences it emits in one pass are pairwise distinct and none of them
already occurs in the knowledge base; the step-5 observation sentence
is appended without any such check. -/
theorem c5_amended (K : List Sentence) :
    (∀ d ∈ deriveNew K, d ∉ K) ∧ (deriveNew K).Nodup := by
  have inner : ∀ (s : Sentence) (L acc : List Sentence),
      ((∀ d ∈ acc, d ∉ K) ∧ acc.Nodup) →
      (∀ d ∈ L.foldl (deriveStep K s) acc, d ∉ K) ∧
        (L.foldl (deriveStep K s) acc).Nodup := by
    intro s L
    induction L with
    | nil => exact fun acc h => h
    | cons c cs ih =>
      intro acc h
      apply ih
      unfold deriveStep
      by_cases hsub : c.cells ⊂ s.cells
      · rw [if_pos hsub]
        dsimp only
        by_cases hnew :
            (⟨s.cells \ c.cells, s.count - c.count⟩ : Sentence) ∉ K ∧
            (⟨s.cells \ c.cells, s.count - c.count⟩ : Sentence) ∉ acc
        · rw [if_pos hnew]
          refine ⟨?_, ?_⟩
          · intro d hd
            rcases List.mem_append.mp hd with h1 | h2
            · exact h.1 d h1
            · rw [List.mem_singleton] at h2
              subst h2
              exact hnew.1
          · rw [List.nodup_append]
            refine ⟨h.2, List.nodup_singleton _, ?_⟩
            intro x hx hx'
            rw [List.mem_singleton] at hx'
            subst hx'
            exact hnew.2 hx
        · rw [if_neg hnew]
          exact h
      · rw [if_neg hsub]
        exact h
  have outer : ∀ (L acc : List Sentence),
      ((∀ d ∈ acc, d ∉ K) ∧ acc.Nodup) →
      (∀ d ∈ L.foldl (fun acc s => K.foldl (deriveStep K s) acc) acc, d ∉ K) ∧
        (L.foldl (fun acc s => K.foldl (deriveStep K s) acc) acc).Nodup := by
    intro L
    induction L with
    | nil => exact fun acc h => h
    | cons s ss ih => exact fun acc h => ih _ (inner s K acc h)
  exact outer K [] ⟨by simp, List.nodup_nil⟩

/-! ### C6: an empty sentence with nonzero count makes propagation
raise -/

theorem known_mines_of_empty {s : Sentence} (h : s.cells = ∅) :
    s.known_mines = ∅ := by
  unfold Sentence.known_mines
  rw [if_neg]
  rintro ⟨h1, h2⟩
  rw [h] at h1
  simp at h1
  omega

theorem known_safes_of_nonzero {s : Sentence} (hc : s.count ≠ 0) :
    s.known_safes = ∅ := by
  unfold Sentence.known_safes
  rw [if_neg]
  rintro ⟨h1, _⟩
  exact hc h1

/-- Processing an empty sentence with nonzero count raises the
ValueError. -/
theorem stepSentence_empty_nonzero (st : AIState) (s : Sentence)
    (rest : List Sentence) (upd : Bool) (h : s.cells = ∅)
    (hc : s.count ≠ 0) :
    stepSentence st s rest upd = Except.error () := by
  unfold stepSentence
  rw [known_mines_of_empty h, sortCells_empty, List.foldl_nil]
  dsimp only
  rw [known_safes_of_nonzero hc, sortCells_empty, List.foldl_nil]
  dsimp only
  rw [if_pos h, if_neg hc]

/-- The pending-list component of the mine-marking fold keeps its
length. -/
theorem foldl_mineStep_length (l : List Cell)
    (q : AIState × Sentence × List Sentence × Bool) :
    ((l.foldl mineStep q).2.2.1).length = q.2.2.1.length := by
  refine foldlInv (fun r => r.2.2.1.length = q.2.2.1.length) mineStep ?_ l q rfl
  intro a b ha
  unfold mineStep
  split_ifs
  · exact ha
  · simpa using ha

/-- The pending-list component of the safe-marking fold keeps its
length. -/
theorem foldl_safeStep_length (l : List Cell)
    (q : AIState × Sentence × List Sentence × Bool) :
    ((l.foldl safeStep q).2.2.1).length = q.2.2.1.length := by
  refine foldlInv (fun r => r.2.2.1.length = q.2.2.1.length) safeStep ?_ l q rfl
  intro a b ha
  unfold safeStep
  split_ifs
  · exact ha
  · simpa using ha

/-- The pending-list component of the unconditional mine fold keeps its
length. -/
theorem foldl_mineStepAll_length (l : List Cell)
    (p : AIState × List Sentence) :
    ((l.foldl mineStepAll p).2).length = p.2.length := by
  refine foldlInv (fun r => r.2.length = p.2.length) mineStepAll ?_ l p rfl
  intro a b ha
  unfold mineStepAll
  simpa using ha

/-- The pending-list component of the unconditional safe fold keeps its
length. -/
theorem foldl_safeStepAll_length (l : List Cell)
    (p : AIState × List Sentence) :
    ((l.foldl safeStepAll p).2).length = p.2.length := by
  refine foldlInv (fun r => r.2.length = p.2.length) safeStepAll ?_ l p rfl
  intro a b ha
  unfold safeStepAll
  simpa using ha

/-- An empty sentence stays, unchanged, in the pending list through the
mine-marking fold. -/
theorem foldl_mineStep_mem_empty {t : Sentence} (ht : t.cells = ∅)
    (l : List Cell) (q : AIState × Sentence × List Sentence × Bool)
    (hq : t ∈ q.2.2.1) : t ∈ (l.foldl mineStep q).2.2.1 := by
  refine foldlInv (fun r => t ∈ r.2.2.1) mineStep ?_ l q hq
  intro a b ha
  unfold mineStep
  split_ifs
  · exact ha
  · exact List.mem_map.mpr ⟨t, ha, Sentence.mark_mine_of_empty ht b⟩

/-- An empty sentence stays, unchanged, in the pending list through the
safe-marking fold. -/
theorem foldl_safeStep_mem_empty {t : Sentence} (ht : t.cells = ∅)
    (l : List Cell) (q : AIState × Sentence × List Sentence × Bool)
    (hq : t ∈ q.2.2.1) : t ∈ (l.foldl safeStep q).2.2.1 := by
  refine foldlInv (fun r => t ∈ r.2.2.1) safeStep ?_ l q hq
  intro a b ha
  unfold safeStep
  split_ifs
  · exact ha
  · exact List.mem_map.mpr ⟨t, ha, Sentence.mark_safe_of_empty ht b⟩

/-- An empty sentence stays in the pending list through the
unconditional marking folds. -/
theorem foldl_mineStepAll_mem_empty {t : Sentence} (ht : t.cells = ∅)
    (l : List Cell) (p : AIState × List Sentence) (hp : t ∈ p.2) :
    t ∈ (l.foldl mineStepAll p).2 := by
  refine foldlInv (fun r => t ∈ r.2) mineStepAll ?_ l p hp
  intro a b ha
  unfold mineStepAll
  exact List.mem_map.mpr ⟨t, ha, Sentence.mark_mine_of_empty ht b⟩

/-- An empty sentence stays in the pending list through the
unconditional safe fold. -/
theorem foldl_safeStepAll_mem_empty {t : Sentence} (ht : t.cells = ∅)
    (l : List Cell) (p : AIState × List Sentence) (hp : t ∈ p.2) :
    t ∈ (l.foldl safeStepAll p).2 := by
  refine foldlInv (fun r => t ∈ r.2) safeStepAll ?_ l p hp
  intro a b ha
  unfold safeStepAll
  exact List.mem_map.mpr ⟨t, ha, Sentence.mark_safe_of_empty ht b⟩

/-- When processing a sentence completes normally, the pending list
keeps its length and keeps every empty sentence it contained. -/
theorem stepSentence_ok_pending (st : AIState) (s : Sentence)
    (rest : List Sentence) (upd : Bool) (st2 : AIState)
    (rest2 : List Sentence) (upd2 : Bool)
    (hok : stepSentence st s rest upd = Except.ok (st2, rest2, upd2)) :
    rest2.length = rest.length ∧
    ∀ t ∈ rest, t.cells = ∅ → t ∈ rest2 := by
  unfold stepSentence at hok
  rcases hq1 : (sortCells s.known_mines).foldl mineStep (st, s, rest, upd)
    with ⟨st1, s1, rest1, upd1⟩
  rw [hq1] at hok
  dsimp only at hok
  rcases hq2 : (sortCells s1.known_safes).foldl safeStep (st1, s1, rest1, upd1)
    with ⟨st2', s2, rest2', upd2'⟩
  rw [hq2] at hok
  have hlen1 : rest1.length = rest.length := by
    have := foldl_mineStep_length (sortCells s.known_mines) (st, s, rest, upd)
    rw [hq1] at this
    exact this
  have hlen2 : rest2'.length = rest1.length := by
    have := foldl_safeStep_length (sortCells s1.known_safes)
      (st1, s1, rest1, upd1)
    rw [hq2] at this
    exact this
  have hmem2 : ∀ t ∈ rest, t.cells = ∅ → t ∈ rest2' := by
    intro t ht hte
    have h1 : t ∈ rest1 := by
      have := foldl_mineStep_mem_empty hte (sortCells s.known_mines)
        (st, s, rest, upd) ht
      rw [hq1] at this
      exact this
    have := foldl_safeStep_mem_empty hte (sortCells s1.known_safes)
      (st1, s1, rest1, upd1) h1
    rw [hq2] at this
    exact this
  dsimp only at hok
  split_ifs at hok with h1 h2 h3 h4
  · rcases hok with ⟨rfl, rfl, rfl⟩
    exact ⟨hlen2.trans hlen1, hmem2⟩
  · rcases hq3 : (sortCells s2.cells).foldl mineStepAll (st2', rest2')
      with ⟨st3, rest3⟩
    rw [hq3] at hok
    rcases hok with ⟨rfl, rfl, rfl⟩
    constructor
    · have := foldl_mineStepAll_length (sortCells s2.cells) (st2', rest2')
      rw [hq3] at this
      exact this.trans (hlen2.trans hlen1)
    · intro t ht hte
      have := foldl_mineStepAll_mem_empty hte (sortCells s2.cells)
        (st2', rest2') (hmem2 t ht hte)
      rw [hq3] at this
      exact this
  · rcases hq3 : (sortCells s2.cells).foldl safeStepAll (st2', rest2')
      with ⟨st3, rest3⟩
    rw [hq3] at hok
    rcases hok with ⟨rfl, rfl, rfl⟩
    constructor
    · have := foldl_safeStepAll_length (sortCells s2.cells) (st2', rest2')
      rw [hq3] at this
      exact this.trans (hlen2.trans hlen1)
    · intro t ht hte
      have := foldl_safeStepAll_mem_empty hte (sortCells s2.cells)
        (st2', rest2') (hmem2 t ht hte)
      rw [hq3] at this
      exact this
  · rcases hok with ⟨rfl, rfl, rfl⟩
    exact ⟨hlen2.trans hlen1, hmem2⟩

/-- The marking sweep raises whenever the pending list holds an empty
sentence with nonzero count. -/
theorem phase1_error (n : ℕ) :
    ∀ (st : AIState) (pending : List Sentence) (upd : Bool) (t : Sentence),
    t ∈ pending → t.cells = ∅ → t.count ≠ 0 → pending.length ≤ n →
    phase1 n st pending upd = Except.error () := by
  induction n with
  | zero =>
    intro st pending upd t hmem _ _ hlen
    rw [Nat.le_zero, List.length_eq_zero] at hlen
    subst hlen
    exact absurd hmem (List.not_mem_nil t)
  | succ n ih =>
    intro st pending upd t hmem hte htc hlen
    cases pending with
    | nil => exact absurd hmem (List.not_mem_nil t)
    | cons s rest =>
      rcases List.mem_cons.mp hmem with rfl | hmem'
      · unfold phase1
        rw [stepSentence_empty_nonzero st t rest upd hte htc]
      · unfold phase1
        cases hstep : stepSentence st s rest upd with
        | error e => rfl
        | ok v =>
          rcases v with ⟨st2, rest2, upd2⟩
          have hp := stepSentence_ok_pending st s rest upd st2 rest2 upd2 hstep
          exact ih st2 rest2 upd2 t (hp.2 t hmem' hte) hte htc
            (by rw [hp.1]; exact Nat.le_of_succ_le_succ (by simpa using hlen))

/-- A whole pass raises whenever the knowledge base holds an empty
sentence with nonzero count. -/
theorem onePass_error (st : AIState)
    (h : ∃ s ∈ st.knowledge, s.cells = ∅ ∧ s.count ≠ 0) :
    onePass st = Except.error () := by
  rcases h with ⟨s, hmem, hte, htc⟩
  unfold onePass
  rw [phase1_error st.knowledge.length st st.knowledge false s hmem hte htc
    (le_refl _)]

/-- C6: if any statement in the knowledge base has an empty cell set
with a nonzero count, the propagation loop raises the fatal ValueError
on its very next pass; it never returns normally and never silently
discards the statement. -/
theorem c6_empty_nonzero_raises (st : AIState) (fuel : ℕ)
    (h : ∃ s ∈ st.knowledge, s.cells = ∅ ∧ s.count ≠ 0) :
    loopFuel (fuel + 1) st = some (Except.error ()) := by
  unfold loopFuel
  rw [onePass_error st h]

/-- Witness for C6 at a concrete contradictory state. -/
theorem c6_empty_nonzero_raises_witness :
    (∃ s ∈ ({ height := 2, width := 2, moves_made := ∅, mines := ∅,
              safes := ∅, knowledge := [⟨∅, 5⟩] } : AIState).knowledge,
        s.cells = ∅ ∧ s.count ≠ 0) ∧
    loopFuel 1 { height := 2, width := 2, moves_made := ∅, mines := ∅,
                 safes := ∅, knowledge := [⟨∅, 5⟩] } =
      some (Except.error ()) :=
  ⟨by decide,
   c6_empty_nonzero_raises
     { height := 2, width := 2, moves_made := ∅, mines := ∅, safes := ∅,
       knowledge := [⟨∅, 5⟩] } 0 (by decide)⟩

/-! ### C8: monotonicity of the three cell sets -/

theorem setsMono_refl (a : AIState) : SetsMono a a :=
  ⟨Finset.Subset.refl _, Finset.Subset.refl _, Finset.Subset.refl _⟩

theorem setsMono_trans {a b c : AIState} (h1 : SetsMono a b)
    (h2 : SetsMono b c) : SetsMono a c :=
  ⟨h1.1.trans h2.1, h1.2.1.trans h2.2.1, h1.2.2.trans h2.2.2⟩

theorem mark_mine_mono (st : AIState) (c : Cell) :
    SetsMono st (st.mark_mine c) :=
  ⟨Finset.Subset.refl _, Finset.subset_insert c st.mines, Finset.Subset.refl _⟩

theorem mark_safe_mono (st : AIState) (c : Cell) :
    SetsMono st (st.mark_safe c) :=
  ⟨Finset.Subset.refl _, Finset.Subset.refl _, Finset.subset_insert c st.safes⟩

theorem foldl_mineStep_mono (l : List Cell)
    (q : AIState × Sentence × List Sentence × Bool) :
    SetsMono q.1 ((l.foldl mineStep q).1) := by
  refine foldlInv (fun r => SetsMono q.1 r.1) mineStep ?_ l q (setsMono_refl _)
  intro a b ha
  unfold mineStep
  split_ifs
  · exact ha
  · exact setsMono_trans ha (mark_mine_mono a.1 b)

theorem foldl_safeStep_mono (l : List Cell)
    (q : AIState × Sentence × List Sentence × Bool) :
    SetsMono q.1 ((l.foldl safeStep q).1) := by
  refine foldlInv (fun r => SetsMono q.1 r.1) safeStep ?_ l q (setsMono_refl _)
  intro a b ha
  unfold safeStep
  split_ifs
  · exact ha
  · exact setsMono_trans ha (mark_safe_mono a.1 b)

theorem foldl_mineStepAll_mono (l : List Cell) (p : AIState × List Sentence) :
    SetsMono p.1 ((l.foldl mineStepAll p).1) := by
  refine foldlInv (fun r => SetsMono p.1 r.1) mineStepAll ?_ l p
    (setsMono_refl _)
  intro a b ha
  exact setsMono_trans ha (mark_mine_mono a.1 b)

theorem foldl_safeStepAll_mono (l : List Cell) (p : AIState × List Sentence) :
    SetsMono p.1 ((l.foldl safeStepAll p).1) := by
  refine foldlInv (fun r => SetsMono p.1 r.1) safeStepAll ?_ l p
    (setsMono_refl _)
  intro a b ha
  exact setsMono_trans ha (mark_safe_mono a.1 b)

/-- Processing one sentence never removes a cell from the three sets. -/
theorem stepSentence_ok_mono (st : AIState) (s : Sentence)
    (rest : List Sentence) (upd : Bool) (st2 : AIState)
    (rest2 : List Sentence) (upd2 : Bool)
    (hok : stepSentence st s rest upd = Except.ok (st2, rest2, upd2)) :
    SetsMono st st2 := by
  unfold stepSentence at hok
  rcases hq1 : (sortCells s.known_mines).foldl mineStep (st, s, rest, upd)
    with ⟨st1, s1, rest1, upd1⟩
  rw [hq1] at hok
  dsimp only at hok
  rcases hq2 : (sortCells s1.known_safes).foldl safeStep (st1, s1, rest1, upd1)
    with ⟨st2', s2, rest2', upd2'⟩
  rw [hq2] at hok
  have hm1 : SetsMono st st1 := by
    have := foldl_mineStep_mono (sortCells s.known_mines) (st, s, rest, upd)
    rw [hq1] at this
    exact this
  have hm2 : SetsMono st st2' := by
    have := foldl_safeStep_mono (sortCells s1.known_safes)
      (st1, s1, rest1, upd1)
    rw [hq2] at this
    exact setsMono_trans hm1 this
  dsimp only at hok
  split_ifs at hok with h1 h2 h3 h4
  · rcases hok with ⟨rfl, rfl, rfl⟩
    exact hm2
  · rcases hq3 : (sortCells s2.cells).foldl mineStepAll (st2', rest2')
      with ⟨st3, rest3⟩
    rw [hq3] at hok
    rcases hok with ⟨rfl, rfl, rfl⟩
    have := foldl_mineStepAll_mono (sortCells s2.cells) (st2', rest2')
    rw [hq3] at this
    exact setsMono_trans hm2 this
  · rcases hq3 : (sortCells s2.cells).foldl safeStepAll (st2', rest2')
      with ⟨st3, rest3⟩
    rw [hq3] at hok
    rcases hok with ⟨rfl, rfl, rfl⟩
    have := foldl_safeStepAll_mono (sortCells s2.cells) (st2', rest2')
    rw [hq3] at this
    exact setsMono_trans hm2 this
  · rcases hok with ⟨rfl, rfl, rfl⟩
    exact hm2

/-- The marking sweep never removes a cell from the three sets. -/
theorem phase1_ok_mono (n : ℕ) :
    ∀ (st : AIState) (pending : List Sentence) (upd : Bool) (st1 : AIState)
      (upd1 : Bool), phase1 n st pending upd = Except.ok (st1, upd1) →
    SetsMono st st1 := by
  induction n with
  | zero =>
    intro st pending upd st1 upd1 hok
    cases pending with
    | nil =>
      unfold phase1 at hok
      rcases hok with ⟨rfl, rfl⟩
      exact setsMono_refl st
    | cons s rest =>
      unfold phase1 at hok
      rcases hok with ⟨rfl, rfl⟩
      exact setsMono_refl st
  | succ n ih =>
    intro st pending upd st1 upd1 hok
    cases pending with
    | nil =>
      unfold phase1 at hok
      rcases hok with ⟨rfl, rfl⟩
      exact setsMono_refl st
    | cons s rest =>
      unfold phase1 at hok
      cases hstep : stepSentence st s rest upd with
      | error e =>
        rw [hstep] at hok
        exact absurd hok (by simp)
      | ok v =>
        rcases v with ⟨st2, rest2, upd2⟩
        rw [hstep] at hok
        dsimp only at hok
        exact setsMono_trans
          (stepSentence_ok_mono st s rest upd st2 rest2 upd2 hstep)
          (ih st2 rest2 upd2 st1 upd1 hok)

/-- A completed pass never removes a cell from the three sets. -/
theorem onePass_ok_mono (st st1 : AIState) (upd1 : Bool)
    (hok : onePass st = Except.ok (st1, upd1)) : SetsMono st st1 := by
  unfold onePass at hok
  cases hp : phase1 st.knowledge.length st st.knowledge false with
  | error e =>
    rw [hp] at hok
    exact absurd hok (by simp)
  | ok v =>
    rcases v with ⟨stp, updp⟩
    rw [hp] at hok
    dsimp only at hok
    rcases hok with ⟨rfl, rfl⟩
    exact phase1_ok_mono st.knowledge.length st st.knowledge false stp updp hp

/-- A normally terminating propagation loop never removes a cell from
the three sets. -/
theorem loopFuel_ok_mono (fuel : ℕ) :
    ∀ (st st' : AIState), loopFuel fuel st = some (Except.ok st') →
    SetsMono st st' := by
  induction fuel with
  | zero =>
    intro st st' h
    exact absurd h (by simp [loopFuel])
  | succ n ih =>
    intro st st' h
    unfold loopFuel at h
    cases hp : onePass st with
    | error e =>
      rw [hp] at h
      simp at h
    | ok v =>
      rcases v with ⟨st1, upd⟩
      rw [hp] at h
      cases upd with
      | true =>
        dsimp only at h
        exact setsMono_trans (onePass_ok_mono st st1 true hp) (ih st1 st' h)
      | false =>
        dsimp only at h
        rw [Option.some_inj] at h
        cases h
        exact onePass_ok_mono st st' false hp

/-- The ingestion steps only insert into the three sets. -/
theorem ingest_mono (st : AIState) (cell : Cell) (count : ℤ) :
    SetsMono st (ingest st cell count) := by
  have hpre : SetsMono st (preState st cell) := by
    refine ⟨?_, ?_, ?_⟩ <;>
      simp [preState, AIState.mark_safe, Finset.subset_insert,
        Finset.insert_subset_insert]
  simp only [ingest]
  split_ifs
  · exact hpre
  · exact setsMono_trans hpre ⟨Finset.Subset.refl _, Finset.Subset.refl _,
      Finset.Subset.refl _⟩

/-- The safe-move query writes no state field. -/
theorem make_safe_move_state (pick : List Cell → Cell) (st : AIState) :
    (make_safe_move pick st).2 = st := by
  simp only [make_safe_move]
  split_ifs <;> rfl

/-- The random-move query writes no state field. -/
theorem make_random_move_state (pick : List Cell → Cell) (st : AIState) :
    (make_random_move pick st).2 = st := by
  simp only [make_random_move]
  split_ifs <;> rfl

/-- C8: across every engine operation that completes normally, the
moves-made, known-mine and known-safe sets only grow: a cell in one of
the sets before the operation is still there after it. -/
theorem c8_monotonicity (st st' : AIState)
    (h : (∃ (fuel : ℕ) (cell : Cell) (count : ℤ),
            add_knowledge fuel st cell count = some (Except.ok st')) ∨
         (∃ c : Cell, st' = st.mark_mine c) ∨
         (∃ c : Cell, st' = st.mark_safe c) ∨
         (∃ pick : List Cell → Cell, st' = (make_safe_move pick st).2) ∨
         (∃ pick : List Cell → Cell, st' = (make_random_move pick st).2)) :
    st.moves_made ⊆ st'.moves_made ∧ st.mines ⊆ st'.mines ∧
      st.safes ⊆ st'.safes := by
  rcases h with ⟨fuel, cell, count, hk⟩ | ⟨c, rfl⟩ | ⟨c, rfl⟩ |
    ⟨pick, rfl⟩ | ⟨pick, rfl⟩
  · exact setsMono_trans (ingest_mono st cell count)
      (loopFuel_ok_mono fuel (ingest st cell count) st' hk)
  · exact mark_mine_mono st c
  · exact mark_safe_mono st c
  · rw [make_safe_move_state]
    exact setsMono_refl st
  · rw [make_random_move_state]
    exact setsMono_refl st

/-- Witness for C8 at a concrete operation. -/
theorem c8_monotonicity_witness :
    ((∃ (fuel : ℕ) (cell : Cell) (count : ℤ),
        add_knowledge fuel (initState 2 2) cell count =
          some (Except.ok ((initState 2 2).mark_mine (0, 0)))) ∨
     (∃ c : Cell, (initState 2 2).mark_mine (0, 0) =
        (initState 2 2).mark_mine c) ∨
     (∃ c : Cell, (initState 2 2).mark_mine (0, 0) =
        (initState 2 2).mark_safe c) ∨
     (∃ pick : List Cell → Cell, (initState 2 2).mark_mine (0, 0) =
        (make_safe_move pick (initState 2 2)).2) ∨
     (∃ pick : List Cell → Cell, (initState 2 2).mark_mine (0, 0) =
        (make_random_move pick (initState 2 2)).2)) ∧
    ((initState 2 2).moves_made ⊆
        ((initState 2 2).mark_mine (0, 0)).moves_made ∧
      (initState 2 2).mines ⊆ ((initState 2 2).mark_mine (0, 0)).mines ∧
      (initState 2 2).safes ⊆ ((initState 2 2).mark_mine (0, 0)).safes) :=
  ⟨Or.inr (Or.inl ⟨(0, 0), rfl⟩),
   c8_monotonicity (initState 2 2) ((initState 2 2).mark_mine (0, 0))
     (Or.inr (Or.inl ⟨(0, 0), rfl⟩))⟩

/-! ### C2: soundness of reachable states -/

theorem sentSound_mark_mine {μ : Finset Cell} {s : Sentence}
    (hs : SentSound μ s) {c : Cell} (hc : c ∈ μ) :
    SentSound μ (s.mark_mine c) := by
  unfold Sentence.mark_mine
  split_ifs with hin
  · unfold SentSound at *
    dsimp only
    rw [Finset.filter_erase,
      Finset.card_erase_of_mem (Finset.mem_filter.mpr ⟨hin, hc⟩)]
    have hpos : 0 < (s.cells.filter (fun x => x ∈ μ)).card :=
      Finset.card_pos.mpr ⟨c, Finset.mem_filter.mpr ⟨hin, hc⟩⟩
    rw [Nat.cast_sub hpos]
    rw [hs]
    simp
  · exact hs

theorem sentSound_mark_safe {μ : Finset Cell} {s : Sentence}
    (hs : SentSound μ s) {c : Cell} (hc : c ∉ μ) :
    SentSound μ (s.mark_safe c) := by
  unfold Sentence.mark_safe
  split_ifs with hin
  · unfold SentSound at *
    dsimp only
    rw [Finset.filter_erase, Finset.erase_eq_of_not_mem
      (fun hmem => hc (Finset.mem_filter.mp hmem).2)]
    exact hs
  · exact hs

/-- For a sound sentence whose cell number equals its count, every cell
is a mine. -/
theorem all_cells_in_mu {μ : Finset Cell} {s : Sentence}
    (hs : SentSound μ s) (hcard : (s.cells.card : ℤ) = s.count) :
    ∀ c ∈ s.cells, c ∈ μ := by
  intro c hcm
  have hsub : s.cells.filter (fun x => x ∈ μ) ⊆ s.cells :=
    Finset.filter_subset _ _
  have hcard2 : s.cells.card ≤ (s.cells.filter (fun x => x ∈ μ)).card := by
    unfold SentSound at hs
    omega
  have heq : s.cells.filter (fun x => x ∈ μ) = s.cells :=
    Finset.eq_of_subset_of_card_le hsub hcard2
  rw [← heq] at hcm
  exact (Finset.mem_filter.mp hcm).2

/-- For a sound sentence with count zero, no cell is a mine. -/
theorem no_cells_in_mu {μ : Finset Cell} {s : Sentence}
    (hs : SentSound μ s) (hzero : s.count = 0) :
    ∀ c ∈ s.cells, c ∉ μ := by
  intro c hcm hcmu
  have hcard : (s.cells.filter (fun x => x ∈ μ)).card = 0 := by
    unfold SentSound at hs
    omega
  have hf : s.cells.filter (fun x => x ∈ μ) = ∅ :=
    Finset.card_eq_zero.mp hcard
  have : c ∈ s.cells.filter (fun x => x ∈ μ) :=
    Finset.mem_filter.mpr ⟨hcm, hcmu⟩
  rw [hf] at this
  exact absurd this (Finset.not_mem_empty c)

/-- The mine deduction of a sound sentence only returns mines. -/
theorem known_mines_subset_mu {μ : Finset Cell} {s : Sentence}
    (hs : SentSound μ s) : ∀ c ∈ s.known_mines, c ∈ μ := by
  intro c hcm
  unfold Sentence.known_mines at hcm
  split_ifs at hcm with h
  · exact all_cells_in_mu hs h.1 c hcm
  · exact absurd hcm (Finset.not_mem_empty c)

/-- The safe deduction of a sound sentence only returns non-mines. -/
theorem known_safes_disjoint_mu {μ : Finset Cell} {s : Sentence}
    (hs : SentSound μ s) : ∀ c ∈ s.known_safes, c ∉ μ := by
  intro c hcs
  unfold Sentence.known_safes at hcs
  split_ifs at hcs with h
  · exact no_cells_in_mu hs h.1 c hcs
  · exact absurd hcs (Finset.not_mem_empty c)

theorem sound_mark_mine {μ : Finset Cell} {st : AIState} {c : Cell}
    (h : Sound μ st) (hc : c ∈ μ) : Sound μ (st.mark_mine c) := by
  obtain ⟨h1, h2, h3, h4⟩ := h
  refine ⟨Finset.insert_subset_iff.mpr ⟨hc, h1⟩, h2, h3, ?_⟩
  intro s hsmem
  rcases List.mem_map.mp hsmem with ⟨t, htmem, rfl⟩
  exact sentSound_mark_mine (h4 t htmem) hc

theorem sound_mark_safe {μ : Finset Cell} {st : AIState} {c : Cell}
    (h : Sound μ st) (hc : c ∉ μ) : Sound μ (st.mark_safe c) := by
  obtain ⟨h1, h2, h3, h4⟩ := h
  refine ⟨h1, ?_, h3, ?_⟩
  · intro x hx
    rcases Finset.mem_insert.mp hx with rfl | hx'
    · exact hc
    · exact h2 x hx'
  · intro s hsmem
    rcases List.mem_map.mp hsmem with ⟨t, htmem, rfl⟩
    exact sentSound_mark_safe (h4 t htmem) hc

theorem foldl_mineStep_sound {μ : Finset Cell} (l : List Cell)
    (hl : ∀ m ∈ l, m ∈ μ) :
    ∀ (q : AIState × Sentence × List Sentence × Bool),
    Sound μ q.1 → SentSound μ q.2.1 → (∀ t ∈ q.2.2.1, SentSound μ t) →
    Sound μ (l.foldl mineStep q).1 ∧ SentSound μ (l.foldl mineStep q).2.1 ∧
      ∀ t ∈ (l.foldl mineStep q).2.2.1, SentSound μ t := by
  induction l with
  | nil => exact fun q h1 h2 h3 => ⟨h1, h2, h3⟩
  | cons m ms ih =>
    intro q h1 h2 h3
    have hm : m ∈ μ := hl m (List.mem_cons_self m ms)
    have hl' : ∀ x ∈ ms, x ∈ μ := fun x hx => hl x (List.mem_cons_of_mem m hx)
    show Sound μ ((ms.foldl mineStep (mineStep q m)).1) ∧ _
    refine ih hl' (mineStep q m) ?_ ?_ ?_
    all_goals
      unfold mineStep
      split_ifs
    · exact h1
    · exact sound_mark_mine h1 hm
    · exact h2
    · exact sentSound_mark_mine h2 hm
    · exact h3
    · intro t ht
      rcases List.mem_map.mp ht with ⟨u, hu, rfl⟩
      exact sentSound_mark_mine (h3 u hu) hm

theorem foldl_safeStep_sound {μ : Finset Cell} (l : List Cell)
    (hl : ∀ m ∈ l, m ∉ μ) :
    ∀ (q : AIState × Sentence × List Sentence × Bool),
    Sound μ q.1 → SentSound μ q.2.1 → (∀ t ∈ q.2.2.1, SentSound μ t) →
    Sound μ (l.foldl safeStep q).1 ∧ SentSound μ (l.foldl safeStep q).2.1 ∧
      ∀ t ∈ (l.foldl safeStep q).2.2.1, SentSound μ t := by
  induction l with
  | nil => exact fun q h1 h2 h3 => ⟨h1, h2, h3⟩
  | cons m ms ih =>
    intro q h1 h2 h3
    have hm : m ∉ μ := hl m (List.mem_cons_self m ms)
    have hl' : ∀ x ∈ ms, x ∉ μ := fun x hx => hl x (List.mem_cons_of_mem m hx)
    refine ih hl' (safeStep q m) ?_ ?_ ?_
    all_goals
      unfold safeStep
      split_ifs
    · exact h1
    · exact sound_mark_safe h1 hm
    · exact h2
    · exact sentSound_mark_safe h2 hm
    · exact h3
    · intro t ht
      rcases List.mem_map.mp ht with ⟨u, hu, rfl⟩
      exact sentSound_mark_safe (h3 u hu) hm

theorem foldl_mineStepAll_sound {μ : Finset Cell} (l : List Cell)
    (hl : ∀ m ∈ l, m ∈ μ) :
    ∀ (p : AIState × List Sentence),
    Sound μ p.1 → (∀ t ∈ p.2, SentSound μ t) →
    Sound μ (l.foldl mineStepAll p).1 ∧
      ∀ t ∈ (l.foldl mineStepAll p).2, SentSound μ t := by
  induction l with
  | nil => exact fun p h1 h2 => ⟨h1, h2⟩
  | cons m ms ih =>
    intro p h1 h2
    have hm : m ∈ μ := hl m (List.mem_cons_self m ms)
    have hl' : ∀ x ∈ ms, x ∈ μ := fun x hx => hl x (List.mem_cons_of_mem m hx)
    refine ih hl' (mineStepAll p m) ?_ ?_
    · exact sound_mark_mine h1 hm
    · intro t ht
      rcases List.mem_map.mp ht with ⟨u, hu, rfl⟩
      exact sentSound_mark_mine (h2 u hu) hm

theorem foldl_safeStepAll_sound {μ : Finset Cell} (l : List Cell)
    (hl : ∀ m ∈ l, m ∉ μ) :
    ∀ (p : AIState × List Sentence),
    Sound μ p.1 → (∀ t ∈ p.2, SentSound μ t) →
    Sound μ (l.foldl safeStepAll p).1 ∧
      ∀ t ∈ (l.foldl safeStepAll p).2, SentSound μ t := by
  induction l with
  | nil => exact fun p h1 h2 => ⟨h1, h2⟩
  | cons m ms ih =>
    intro p h1 h2
    have hm : m ∉ μ := hl m (List.mem_cons_self m ms)
    have hl' : ∀ x ∈ ms, x ∉ μ := fun x hx => hl x (List.mem_cons_of_mem m hx)
    refine ih hl' (safeStepAll p m) ?_ ?_
    · exact sound_mark_safe h1 hm
    · intro t ht
      rcases List.mem_map.mp ht with ⟨u, hu, rfl⟩
      exact sentSound_mark_safe (h2 u hu) hm

/-- Processing one sentence preserves soundness of the state and of the
pending list. -/
theorem stepSentence_sound {μ : Finset Cell} (st : AIState) (s : Sentence)
    (rest : List Sentence) (upd : Bool) (st2 : AIState)
    (rest2 : List Sentence) (upd2 : Bool) (hst : Sound μ st)
    (hs : SentSound μ s) (hrest : ∀ t ∈ rest, SentSound μ t)
    (hok : stepSentence st s rest upd = Except.ok (st2, rest2, upd2)) :
    Sound μ st2 ∧ ∀ t ∈ rest2, SentSound μ t := by
  unfold stepSentence at hok
  rcases hq1 : (sortCells s.known_mines).foldl mineStep (st, s, rest, upd)
    with ⟨st1, s1, rest1, upd1⟩
  rw [hq1] at hok
  dsimp only at hok
  have hl1 : ∀ m ∈ sortCells s.known_mines, m ∈ μ := fun m hm =>
    known_mines_subset_mu hs m (mem_sortCells.mp hm)
  have H1 := foldl_mineStep_sound (sortCells s.known_mines) hl1
    (st, s, rest, upd) hst hs hrest
  rw [hq1] at H1
  rcases hq2 : (sortCells s1.known_safes).foldl safeStep (st1, s1, rest1, upd1)
    with ⟨st2', s2, rest2', upd2'⟩
  rw [hq2] at hok
  dsimp only at hok
  have hl2 : ∀ m ∈ sortCells s1.known_safes, m ∉ μ := fun m hm =>
    known_safes_disjoint_mu H1.2.1 m (mem_sortCells.mp hm)
  have H2 := foldl_safeStep_sound (sortCells s1.known_safes) hl2
    (st1, s1, rest1, upd1) H1.1 H1.2.1 H1.2.2
  rw [hq2] at H2
  split_ifs at hok with h1 h2 h3 h4
  · rcases hok with ⟨rfl, rfl, rfl⟩
    obtain ⟨hA, hB, hC, hD⟩ := H2.1
    exact ⟨⟨hA, hB, hC, fun t ht => hD t (List.mem_of_mem_erase ht)⟩, H2.2.2⟩
  · rcases hq3 : (sortCells s2.cells).foldl mineStepAll (st2', rest2')
      with ⟨st3, rest3⟩
    rw [hq3] at hok
    rcases hok with ⟨rfl, rfl, rfl⟩
    have hl3 : ∀ m ∈ sortCells s2.cells, m ∈ μ := fun m hm =>
      all_cells_in_mu H2.2.1 h3 m (mem_sortCells.mp hm)
    have H3 := foldl_mineStepAll_sound (sortCells s2.cells) hl3
      (st2', rest2') H2.1 H2.2.2
    rw [hq3] at H3
    exact H3
  · rcases hq3 : (sortCells s2.cells).foldl safeStepAll (st2', rest2')
      with ⟨st3, rest3⟩
    rw [hq3] at hok
    rcases hok with ⟨rfl, rfl, rfl⟩
    have hl3 : ∀ m ∈ sortCells s2.cells, m ∉ μ := fun m hm =>
      no_cells_in_mu H2.2.1 h4 m (mem_sortCells.mp hm)
    have H3 := foldl_safeStepAll_sound (sortCells s2.cells) hl3
      (st2', rest2') H2.1 H2.2.2
    rw [hq3] at H3
    exact H3
  · rcases hok with ⟨rfl, rfl, rfl⟩
    exact ⟨H2.1, H2.2.2⟩

/-- The marking sweep preserves soundness. -/
theorem phase1_sound {μ : Finset Cell} (n : ℕ) :
    ∀ (st : AIState) (pending : List Sentence) (upd : Bool) (st1 : AIState)
      (upd1 : Bool), Sound μ st → (∀ t ∈ pending, SentSound μ t) →
    phase1 n st pending upd = Except.ok (st1, upd1) → Sound μ st1 := by
  induction n with
  | zero =>
    intro st pending upd st1 upd1 hst hpend hok
    cases pending with
    | nil =>
      unfold phase1 at hok
      rcases hok with ⟨rfl, rfl⟩
      exact hst
    | cons s rest =>
      unfold phase1 at hok
      rcases hok with ⟨rfl, rfl⟩
      exact hst
  | succ n ih =>
    intro st pending upd st1 upd1 hst hpend hok
    cases pending with
    | nil =>
      unfold phase1 at hok
      rcases hok with ⟨rfl, rfl⟩
      exact hst
    | cons s rest =>
      unfold phase1 at hok
      cases hstep : stepSentence st s rest upd with
      | error e =>
        rw [hstep] at hok
        exact absurd hok (by simp)
      | ok v =>
        rcases v with ⟨st2, rest2, upd2⟩
        rw [hstep] at hok
        dsimp only at hok
        have H := stepSentence_sound st s rest upd st2 rest2 upd2 hst
          (hpend s (List.mem_cons_self s rest))
          (fun t ht => hpend t (List.mem_cons_of_mem s ht)) hstep
        exact ih st2 rest2 upd2 st1 upd1 H.1 H.2 hok

/-- The difference sentence of the subset rule is sound when both of
its parents are. -/
theorem sentSound_sdiff {μ : Finset Cell} {s c : Sentence}
    (hs : SentSound μ s) (hc : SentSound μ c) (hsub : c.cells ⊆ s.cells) :
    SentSound μ { cells := s.cells \ c.cells, count := s.count - c.count } := by
  unfold SentSound at *
  dsimp only
  have hset : (s.cells \ c.cells).filter (fun x => x ∈ μ) =
      s.cells.filter (fun x => x ∈ μ) \ c.cells.filter (fun x => x ∈ μ) := by
    ext x
    simp only [Finset.mem_filter, Finset.mem_sdiff]
    constructor
    · rintro ⟨⟨hxs, hxc⟩, hxm⟩
      exact ⟨⟨hxs, hxm⟩, fun hmem => hxc hmem.1⟩
    · rintro ⟨⟨hxs, hxm⟩, hxc⟩
      exact ⟨⟨hxs, fun hmem => hxc ⟨hmem, hxm⟩⟩, hxm⟩
  rw [hset, Finset.card_sdiff (Finset.filter_subset_filter _ hsub),
    Nat.cast_sub (Finset.card_le_card (Finset.filter_subset_filter _ hsub))]
  rw [hs, hc]

/-- Every sentence emitted by the subset-derivation sweep is sound when
the knowledge base is. -/
theorem deriveNew_sound {μ : Finset Cell} (K : List Sentence)
    (hK : ∀ t ∈ K, SentSound μ t) : ∀ d ∈ deriveNew K, SentSound μ d := by
  have inner : ∀ (s : Sentence), SentSound μ s →
      ∀ (L acc : List Sentence), (∀ t ∈ L, SentSound μ t) →
      (∀ d ∈ acc, SentSound μ d) →
      ∀ d ∈ L.foldl (deriveStep K s) acc, SentSound μ d := by
    intro s hs L
    induction L with
    | nil => exact fun acc _ hacc => hacc
    | cons c cs ih =>
      intro acc hL hacc
      rw [List.foldl_cons]
      refine ih (deriveStep K s acc c)
        (fun t ht => hL t (List.mem_cons_of_mem c ht)) ?_
      unfold deriveStep
      by_cases hsub : c.cells ⊂ s.cells
      · rw [if_pos hsub]
        dsimp only
        split_ifs with hnew
        · intro d hd
          rcases List.mem_append.mp hd with h1 | h2
          · exact hacc d h1
          · rw [List.mem_singleton] at h2
            subst h2
            exact sentSound_sdiff hs (hL c (List.mem_cons_self c cs))
              hsub.subset
        · exact hacc
      · rw [if_neg hsub]
        exact hacc
  have outer : ∀ (L acc : List Sentence), (∀ t ∈ L, SentSound μ t) →
      (∀ d ∈ acc, SentSound μ d) →
      ∀ d ∈ L.foldl (fun acc s => K.foldl (deriveStep K s) acc) acc,
        SentSound μ d := by
    intro L
    induction L with
    | nil => exact fun acc _ hacc => hacc
    | cons s ss ih =>
      intro acc hL hacc
      rw [List.foldl_cons]
      exact ih (K.foldl (deriveStep K s) acc)
        (fun t ht => hL t (List.mem_cons_of_mem s ht))
        (inner s (hL s (List.mem_cons_self s ss)) K acc hK hacc)
  exact outer K [] hK (by simp)

/-- A completed pass preserves soundness. -/
theorem onePass_sound {μ : Finset Cell} (st st1 : AIState) (upd1 : Bool)
    (hst : Sound μ st) (hok : onePass st = Except.ok (st1, upd1)) :
    Sound μ st1 := by
  unfold onePass at hok
  cases hp : phase1 st.knowledge.length st st.knowledge false with
  | error e =>
    rw [hp] at hok
    exact absurd hok (by simp)
  | ok v =>
    rcases v with ⟨stp, updp⟩
    rw [hp] at hok
    dsimp only at hok
    rcases hok with ⟨rfl, rfl⟩
    have hstp : Sound μ stp :=
      phase1_sound st.knowledge.length st st.knowledge false stp updp hst
        hst.2.2.2 hp
    obtain ⟨hA, hB, hC, hD⟩ := hstp
    refine ⟨hA, hB, hC, ?_⟩
    intro t ht
    rcases List.mem_append.mp ht with h1 | h2
    · exact hD t h1
    · exact deriveNew_sound stp.knowledge hD t h2

/-- A normally terminating loop preserves soundness. -/
theorem loopFuel_sound {μ : Finset Cell} (fuel : ℕ) :
    ∀ (st st' : AIState), Sound μ st →
    loopFuel fuel st = some (Except.ok st') → Sound μ st' := by
  induction fuel with
  | zero =>
    intro st st' _ h
    exact absurd h (by simp [loopFuel])
  | succ n ih =>
    intro st st' hst h
    unfold loopFuel at h
    cases hp : onePass st with
    | error e =>
      rw [hp] at h
      simp at h
    | ok v =>
      rcases v with ⟨st1, upd⟩
      rw [hp] at h
      cases upd with
      | true =>
        dsimp only at h
        exact ih st1 st' (onePass_sound st st1 true hst hp) h
      | false =>
        dsimp only at h
        rw [Option.some_inj] at h
        cases h
        exact onePass_sound st st' false hst hp

/-- Ingesting a consistent observation preserves soundness. -/
theorem ingest_sound {μ : Finset Cell} (st : AIState) (cell : Cell)
    (hst : Sound μ st) (hcell : cell ∉ μ) :
    Sound μ (ingest st cell
      (((surroundingCells st.height st.width cell).filter
        (fun x => x ∈ μ)).card)) := by
  have hpre : Sound μ (preState st cell) := by
    have h1 : Sound μ { st with moves_made := insert cell st.moves_made } := by
      refine ⟨hst.1, hst.2.1, ?_, hst.2.2.2⟩
      intro x hx
      rcases Finset.mem_insert.mp hx with rfl | hx'
      · exact hcell
      · exact hst.2.2.1 x hx'
    exact sound_mark_safe h1 hcell
  simp only [ingest]
  split_ifs with hu
  · exact hpre
  · obtain ⟨hA, hB, hC, hD⟩ := hpre
    refine ⟨hA, hB, hC, ?_⟩
    intro t ht
    rcases List.mem_append.mp ht with h1 | h2
    · exact hD t h1
    · rw [List.mem_singleton] at h2
      subst h2
      -- soundness of the new sentence: counting argument over the
      -- neighbourhood partition
      unfold SentSound unknownCells adjustedCount
      dsimp only
      have hdim : (preState st cell).height = st.height ∧
          (preState st cell).width = st.width := ⟨rfl, rfl⟩
      set A := surroundingCells (preState st cell).height
        (preState st cell).width cell with hA2
      have hAeq : A = surroundingCells st.height st.width cell := by
        rw [hA2, hdim.1, hdim.2]
      set M := (preState st cell).mines with hM
      -- step 1: the unresolved neighbours that are mines are exactly
      -- the neighbours in the assignment and not yet known as mines
      have hstep1 : (A.filter (fun x =>
          x ∉ (preState st cell).moves_made ∧ x ∉ M ∧
            x ∉ (preState st cell).safes)).filter (fun x => x ∈ μ) =
          A.filter (fun x => x ∈ μ ∧ x ∉ M) := by
        rw [Finset.filter_filter]
        apply Finset.filter_congr
        intro x _
        constructor
        · rintro ⟨⟨_, hxm, _⟩, hxmu⟩
          exact ⟨hxmu, hxm⟩
        · rintro ⟨hxmu, hxm⟩
          exact ⟨⟨fun hmem => hC x hmem hxmu,
            hxm, fun hmem => hB x hmem hxmu⟩, hxmu⟩
      -- step 2: the already-known mines among the neighbours are all in
      -- the assignment
      have hstep2 : A.filter (fun x => x ∈ M) =
          A.filter (fun x => x ∈ μ ∧ x ∈ M) := by
        apply Finset.filter_congr
        intro x _
        constructor
        · intro hxm
          exact ⟨hA hxm, hxm⟩
        · intro hx
          exact hx.2
      -- step 3: split the true neighbour count by known-mine membership
      have hstep3 : ((A.filter (fun x => x ∈ μ)).filter
            (fun x => x ∈ M)).card +
          ((A.filter (fun x => x ∈ μ)).filter (fun x => x ∉ M)).card =
          (A.filter (fun x => x ∈ μ)).card :=
        Finset.filter_card_add_filter_neg_card_eq_card (fun x => x ∈ M)
      rw [Finset.filter_filter, Finset.filter_filter] at hstep3
      rw [hstep1, hstep2, ← hAeq]
      omega

/-- Every reachable state is sound for the mine assignment that the
oracle answers from. -/
theorem reachable_sound {h w : ℤ} {μ : Finset Cell} {st : AIState}
    (hr : Reachable h w μ st) : Sound μ st := by
  induction hr with
  | init =>
    refine ⟨?_, ?_, ?_, ?_⟩ <;> simp [initState]
  | observe st st' cell fuel hr hcell hadd ih =>
    exact loopFuel_sound fuel _ st' (ingest_sound st cell ih hcell) hadd

/-- C2: from a fresh engine, under observations whose counts are
consistent with one fixed mine assignment and whose observed cells are
truly safe, no reachable state ever has a cell in both the known-mine
and the known-safe set. -/
theorem c2_soundness_invariant (h w : ℤ) (μ : Finset Cell) (st : AIState)
    (hr : Reachable h w μ st) (c : Cell) :
    ¬(c ∈ st.mines ∧ c ∈ st.safes) := by
  rintro ⟨hm, hs⟩
  have hsound := reachable_sound hr
  exact hsound.2.1 c hs (hsound.1 hm)

/-- Witness for C2 at the fresh engine. -/
theorem c2_soundness_invariant_witness :
    Reachable 2 2 ∅ (initState 2 2) ∧
    ¬((0, 0) ∈ (initState 2 2).mines ∧ (0, 0) ∈ (initState 2 2).safes) :=
  ⟨Reachable.init,
   c2_soundness_invariant 2 2 ∅ (initState 2 2) Reachable.init (0, 0)⟩

/-! ### C3: the propagation loop does not terminate on every state -/

/-- Sentences of the divergence shape are inert for the marking sweep. -/
theorem badShape_inert (s : Sentence)
    (h : ((s.cells = {aC} ∨ s.cells = {bC}) ∧ s.count % 3 = 2) ∨
      (s.cells = {aC, bC} ∧ (s.count = 7 ∨ s.count = 4))) : Inert s := by
  have hmain : s.cells.card = 1 ∧ s.count % 3 = 2 ∨
      s.cells.card = 2 ∧ (s.count = 7 ∨ s.count = 4) := by
    rcases h with ⟨hc, hm⟩ | ⟨hc, hm⟩
    · refine Or.inl ⟨?_, hm⟩
      rcases hc with hc | hc <;> rw [hc] <;> decide
    · refine Or.inr ⟨?_, hm⟩
      rw [hc]; decide
  have h0 : s.count ≠ 0 := by omega
  have h1 : (s.cells.card : ℤ) ≠ s.count := by omega
  have hne : s.cells ≠ ∅ := by
    intro he
    rw [he] at hmain
    simp at hmain
  refine ⟨?_, ?_, hne, h1, h0⟩
  · unfold Sentence.known_mines
    rw [if_neg]
    rintro ⟨ha, _⟩
    exact h1 ha
  · unfold Sentence.known_safes
    rw [if_neg]
    rintro ⟨ha, _⟩
    exact h0 ha

/-- An inert sentence leaves the state, the pending list and the
updated flag untouched. -/
theorem stepSentence_inert (st : AIState) (s : Sentence)
    (rest : List Sentence) (upd : Bool) (h : Inert s) :
    stepSentence st s rest upd = Except.ok (st, rest, upd) := by
  obtain ⟨hkm, hks, hne, hcc, hc0⟩ := h
  unfold stepSentence
  rw [hkm, sortCells_empty, List.foldl_nil]
  dsimp only
  rw [hks, sortCells_empty, List.foldl_nil]
  dsimp only
  rw [if_neg hne, if_neg hcc, if_neg hc0]

/-- The marking sweep over inert sentences is the identity. -/
theorem phase1_inert (n : ℕ) :
    ∀ (st : AIState) (pending : List Sentence) (upd : Bool),
    (∀ s ∈ pending, Inert s) →
    phase1 n st pending upd = Except.ok (st, upd) := by
  induction n with
  | zero =>
    intro st pending upd _
    cases pending with
    | nil => rfl
    | cons s rest => rfl
  | succ n ih =>
    intro st pending upd hin
    cases pending with
    | nil => rfl
    | cons s rest =>
      unfold phase1
      rw [stepSentence_inert st s rest upd (hin s (List.mem_cons_self s rest))]
      exact ih st rest upd (fun t ht => hin t (List.mem_cons_of_mem s ht))

/-- Every sentence emitted by the subset-derivation sweep is the
difference of an ordered pair of sentences of the knowledge base whose
cells are in strict inclusion. -/
theorem deriveNew_mem (K : List Sentence) :
    ∀ d ∈ deriveNew K, ∃ s ∈ K, ∃ c ∈ K, c.cells ⊂ s.cells ∧
      d = { cells := s.cells \ c.cells, count := s.count - c.count } := by
  have inner : ∀ (s : Sentence), s ∈ K → ∀ (L : List Sentence),
      (∀ c ∈ L, c ∈ K) → ∀ (acc : List Sentence),
      (∀ d ∈ acc, ∃ s' ∈ K, ∃ c ∈ K, c.cells ⊂ s'.cells ∧
        d = { cells := s'.cells \ c.cells, count := s'.count - c.count }) →
      ∀ d ∈ L.foldl (deriveStep K s) acc, ∃ s' ∈ K, ∃ c ∈ K,
        c.cells ⊂ s'.cells ∧
        d = { cells := s'.cells \ c.cells, count := s'.count - c.count } := by
    intro s hs L
    induction L with
    | nil => exact fun _ acc hacc => hacc
    | cons c cs ih =>
      intro hL acc hacc
      rw [List.foldl_cons]
      refine ih (fun x hx => hL x (List.mem_cons_of_mem c hx))
        (deriveStep K s acc c) ?_
      unfold deriveStep
      by_cases hsub : c.cells ⊂ s.cells
      · rw [if_pos hsub]
        dsimp only
        split_ifs with hnew
        · intro d hd
          rcases List.mem_append.mp hd with h1 | h2
          · exact hacc d h1
          · rw [List.mem_singleton] at h2
            exact ⟨s, hs, c, hL c (List.mem_cons_self c cs), hsub, h2⟩
        · exact hacc
      · rw [if_neg hsub]
        exact hacc
  have outer : ∀ (L : List Sentence), (∀ s ∈ L, s ∈ K) →
      ∀ (acc : List Sentence),
      (∀ d ∈ acc, ∃ s' ∈ K, ∃ c ∈ K, c.cells ⊂ s'.cells ∧
        d = { cells := s'.cells \ c.cells, count := s'.count - c.count }) →
      ∀ d ∈ L.foldl (fun acc s => K.foldl (deriveStep K s) acc) acc,
        ∃ s' ∈ K, ∃ c ∈ K, c.cells ⊂ s'.cells ∧
        d = { cells := s'.cells \ c.cells, count := s'.count - c.count } := by
    intro L
    induction L with
    | nil => exact fun _ acc hacc => hacc
    | cons s ss ih =>
      intro hL acc hacc
      rw [List.foldl_cons]
      exact ih (fun x hx => hL x (List.mem_cons_of_mem s hx)) _
        (inner s (hL s (List.mem_cons_self s ss)) K (fun _ hx => hx) acc hacc)
  exact outer K (fun _ hx => hx) [] (by simp)

/-- The accumulator never shrinks through the inner derivation fold. -/
theorem foldl_deriveStep_length (K : List Sentence) (s : Sentence) :
    ∀ (L acc : List Sentence),
    acc.length ≤ (L.foldl (deriveStep K s) acc).length := by
  intro L
  induction L with
  | nil => exact fun acc => le_refl _
  | cons c cs ih =>
    intro acc
    refine le_trans ?_ (ih (deriveStep K s acc c))
    unfold deriveStep
    by_cases h1 : c.cells ⊂ s.cells
    · rw [if_pos h1]
      dsimp only
      split_ifs <;> simp
    · rw [if_neg h1]

/-- The accumulator never shrinks through the outer derivation fold. -/
theorem foldl_derive_outer_length (K : List Sentence) :
    ∀ (L acc : List Sentence),
    acc.length ≤
      (L.foldl (fun acc s => K.foldl (deriveStep K s) acc) acc).length := by
  intro L
  induction L with
  | nil => exact fun acc => le_refl _
  | cons s ss ih =>
    intro acc
    exact le_trans (foldl_deriveStep_length K s K acc) (ih _)

/-- If some ordered pair of the knowledge base derives a sentence that
is not yet present, the derivation sweep emits something. -/
theorem deriveNew_ne_nil (K : List Sentence) (s c : Sentence) (hs : s ∈ K)
    (hc : c ∈ K) (hsub : c.cells ⊂ s.cells)
    (hnot : ({ cells := s.cells \ c.cells,
               count := s.count - c.count } : Sentence) ∉ K) :
    deriveNew K ≠ [] := by
  have hlen_ne : ∀ (L acc : List Sentence), acc ≠ [] →
      L.foldl (deriveStep K s) acc ≠ [] := by
    intro L acc hacc
    have := foldl_deriveStep_length K s L acc
    intro hnil
    rw [hnil] at this
    simp at this
    exact hacc (List.length_eq_zero.mp (Nat.le_zero.mp (this ▸ le_refl _)))
  have inner_hit : ∀ (L acc : List Sentence), c ∈ L →
      L.foldl (deriveStep K s) acc ≠ [] := by
    intro L
    induction L with
    | nil => intro acc hmem; exact absurd hmem (List.not_mem_nil c)
    | cons x xs ih =>
      intro acc hmem
      rw [List.foldl_cons]
      rcases List.mem_cons.mp hmem with rfl | hmem'
      · -- the pair is examined here: the accumulator becomes non-empty
        have hne : deriveStep K s acc c ≠ [] := by
          unfold deriveStep
          rw [if_pos hsub]
          dsimp only
          split_ifs with hnew
          · simp
          · -- the derived sentence is already in the accumulator
            push_neg at hnew
            intro hnil
            rw [hnil] at hnew
            exact absurd (hnew hnot) (List.not_mem_nil _)
        exact hlen_ne xs _ hne
      · exact ih _ hmem'
  have outer_ne : ∀ (L acc : List Sentence), acc ≠ [] →
      L.foldl (fun acc s' => K.foldl (deriveStep K s') acc) acc ≠ [] := by
    intro L acc hacc
    have := foldl_derive_outer_length K L acc
    intro hnil
    rw [hnil] at this
    simp at this
    exact hacc (List.length_eq_zero.mp (Nat.le_zero.mp (this ▸ le_refl _)))
  have outer_hit : ∀ (L acc : List Sentence), s ∈ L →
      L.foldl (fun acc s' => K.foldl (deriveStep K s') acc) acc ≠ [] := by
    intro L
    induction L with
    | nil => intro acc hmem; exact absurd hmem (List.not_mem_nil s)
    | cons x xs ih =>
      intro acc hmem
      rw [List.foldl_cons]
      rcases List.mem_cons.mp hmem with rfl | hmem'
      · exact outer_ne xs _ (inner_hit K acc hc)
      · exact ih _ hmem'
  exact outer_hit K [] hs

/-- On a knowledge base satisfying the divergence invariant, every pass
completes with the updated flag set and preserves the invariant: the
marking sweep is the identity and the derivation sweep appends at least
one new sentence of the same shape. -/
theorem onePass_bad (st : AIState) (h : BadInv st.knowledge) :
    onePass st = Except.ok
      ({ st with knowledge := st.knowledge ++ deriveNew st.knowledge },
        true) ∧
    BadInv (st.knowledge ++ deriveNew st.knowledge) := by
  obtain ⟨hshape, hA2, hS7, hS4⟩ := h
  have hderive : deriveNew st.knowledge ≠ [] := by
    have hmemA : ∀ x : ℤ,
        x ∈ ((st.knowledge.filter
            (fun s => decide (s.cells = {aC}))).map Sentence.count).toFinset ↔
          ∃ s ∈ st.knowledge, s.cells = {aC} ∧ s.count = x := by
      intro x
      simp only [List.mem_toFinset, List.mem_map, List.mem_filter,
        decide_eq_true_eq]
      constructor
      · rintro ⟨t, ⟨htK, htc⟩, htx⟩
        exact ⟨t, htK, htc, htx⟩
      · rintro ⟨t, htK, htc, htx⟩
        exact ⟨t, ⟨htK, htc⟩, htx⟩
    have hmemB : ∀ x : ℤ,
        x ∈ ((st.knowledge.filter
            (fun s => decide (s.cells = {bC}))).map Sentence.count).toFinset ↔
          ∃ s ∈ st.knowledge, s.cells = {bC} ∧ s.count = x := by
      intro x
      simp only [List.mem_toFinset, List.mem_map, List.mem_filter,
        decide_eq_true_eq]
      constructor
      · rintro ⟨t, ⟨htK, htc⟩, htx⟩
        exact ⟨t, htK, htc, htx⟩
      · rintro ⟨t, htK, htc, htx⟩
        exact ⟨t, ⟨htK, htc⟩, htx⟩
    set aS := ((st.knowledge.filter
      (fun s => decide (s.cells = {aC}))).map Sentence.count).toFinset with haS
    set bS := ((st.knowledge.filter
      (fun s => decide (s.cells = {bC}))).map Sentence.count).toFinset with hbS
    have h2A : (2 : ℤ) ∈ aS := (hmemA 2).mpr ⟨⟨{aC}, 2⟩, hA2, rfl, rfl⟩
    by_cases hB : bS = ∅
    · refine deriveNew_ne_nil st.knowledge ⟨{aC, bC}, 7⟩ ⟨{aC}, 2⟩ hS7 hA2
        (by decide) ?_
      intro hmem
      have h5 : (5 : ℤ) ∈ bS := by
        refine (hmemB 5).mpr ⟨_, hmem, ?_, ?_⟩
        · show ({aC, bC} : Finset Cell) \ ({aC} : Finset Cell) = {bC}
          decide
        · show (7 : ℤ) - 2 = 5
          norm_num
      rw [hB] at h5
      exact absurd h5 (Finset.not_mem_empty _)
    · have hBne : bS.Nonempty := Finset.nonempty_iff_ne_empty.mpr hB
      have hAne : aS.Nonempty := ⟨2, h2A⟩
      obtain ⟨sa, hsaK, hsac, hsax⟩ := (hmemA (aS.min' hAne)).mp
        (aS.min'_mem hAne)
      obtain ⟨sb, hsbK, hsbc, hsbx⟩ := (hmemB (bS.max' hBne)).mp
        (bS.max'_mem hBne)
      by_cases hd1 : (⟨({aC, bC} : Finset Cell) \ sa.cells,
          (7 : ℤ) - sa.count⟩ : Sentence) ∈ st.knowledge
      · by_cases hd2 : (⟨({aC, bC} : Finset Cell) \ sb.cells,
            (4 : ℤ) - sb.count⟩ : Sentence) ∈ st.knowledge
        · exfalso
          have hm1 : 7 - aS.min' hAne ∈ bS := by
            refine (hmemB _).mpr ⟨_, hd1, ?_, ?_⟩
            · show ({aC, bC} : Finset Cell) \ sa.cells = {bC}
              rw [hsac]
              decide
            · show (7 : ℤ) - sa.count = 7 - aS.min' hAne
              rw [hsax]
          have hm2 : 4 - bS.max' hBne ∈ aS := by
            refine (hmemA _).mpr ⟨_, hd2, ?_, ?_⟩
            · show ({aC, bC} : Finset Cell) \ sb.cells = {aC}
              rw [hsbc]
              decide
            · show (4 : ℤ) - sb.count = 4 - bS.max' hBne
              rw [hsbx]
          have hle1 : 7 - aS.min' hAne ≤ bS.max' hBne :=
            Finset.le_max' bS _ hm1
          have hle2 : aS.min' hAne ≤ 4 - bS.max' hBne :=
            Finset.min'_le aS _ hm2
          omega
        · refine deriveNew_ne_nil st.knowledge ⟨{aC, bC}, 4⟩ sb hS4 hsbK
            ?_ hd2
          show sb.cells ⊂ ({aC, bC} : Finset Cell)
          rw [hsbc]
          decide
      · refine deriveNew_ne_nil st.knowledge ⟨{aC, bC}, 7⟩ sa hS7 hsaK
          ?_ hd1
        show sa.cells ⊂ ({aC, bC} : Finset Cell)
        rw [hsac]
        decide
  have hinert : ∀ s ∈ st.knowledge, Inert s := fun s hs =>
    badShape_inert s (hshape s hs)
  have hupd : (false || !(deriveNew st.knowledge).isEmpty) = true := by
    cases hd : deriveNew st.knowledge with
    | nil => exact absurd hd hderive
    | cons a l => rfl
  constructor
  · unfold onePass
    rw [phase1_inert st.knowledge.length st st.knowledge false hinert]
    dsimp only
    rw [hupd]
  · refine ⟨?_, List.mem_append_left _ hA2, List.mem_append_left _ hS7,
      List.mem_append_left _ hS4⟩
    intro s hs
    rcases List.mem_append.mp hs with hs | hs
    · exact hshape s hs
    · obtain ⟨p, hpK, q, hqK, hsub, rfl⟩ := deriveNew_mem st.knowledge s hs
      have hp := hshape p hpK
      have hq := hshape q hqK
      rcases hp with ⟨hpc, hpm⟩ | ⟨hpc, hpm⟩
      · exfalso
        rcases hq with ⟨hqc, _⟩ | ⟨hqc, _⟩
        · rcases hpc with hpc | hpc <;> rcases hqc with hqc | hqc <;>
            rw [hpc, hqc] at hsub <;> exact absurd hsub (by decide)
        · rcases hpc with hpc | hpc <;> rw [hpc, hqc] at hsub <;>
            exact absurd hsub (by decide)
      · rcases hq with ⟨hqc, hqm⟩ | ⟨hqc, hqm⟩
        · left
          constructor
          · show p.cells \ q.cells = {aC} ∨ p.cells \ q.cells = {bC}
            rcases hqc with hqc | hqc
            · right
              rw [hpc, hqc]
              decide
            · left
              rw [hpc, hqc]
              decide
          · show (p.count - q.count) % 3 = 2
            omega
        · exfalso
          rw [hpc, hqc] at hsub
          exact absurd hsub (by decide)

/-- On a knowledge base satisfying the divergence invariant, the loop
exhausts any amount of fuel: it neither reaches a no-change pass nor
raises. -/
theorem loopFuel_bad (n : ℕ) :
    ∀ st : AIState, BadInv st.knowledge → loopFuel n st = none := by
  induction n with
  | zero => intro st _; rfl
  | succ n ih =>
    intro st h
    have hb := onePass_bad st h
    unfold loopFuel
    rw [hb.1]
    exact ih _ hb.2

/-- C3 counterexample: the propagation loop does not terminate for every
engine state.  On the in-bounds state `st_c3` (statements {a} = 2,
{a,b} = 7, {a,b} = 4, with the neighbours of the observed corner already
safe), `add_knowledge` neither reaches a pass with no change nor raises,
for any number of passes: every pass derives a fresh singleton sentence
with a new count. -/
theorem c3_counterexample :
    ¬ ∃ (fuel : ℕ) (r : Except Unit AIState),
      add_knowledge fuel st_c3 (2, 2) 0 = some r := by
  rintro ⟨fuel, r, hr⟩
  unfold add_knowledge at hr
  rw [loopFuel_bad fuel (ingest st_c3 (2, 2) 0)
    (by unfold BadInv; decide)] at hr
  exact absurd hr (by simp)

theorem sortCells_toFinset (s : Finset Cell) : (sortCells s).toFinset = s := by
  ext x
  rw [List.mem_toFinset]
  exact mem_sortCells

/-- A single sentence derives nothing from itself: the subset test is
strict. -/
theorem deriveNew_single (u : Sentence) : deriveNew [u] = [] := by
  unfold deriveNew
  rw [List.foldl_cons, List.foldl_nil, List.foldl_cons, List.foldl_nil]
  unfold deriveStep
  rw [if_neg]
  intro hsub
  rw [Finset.ssubset_def] at hsub
  exact hsub.2 hsub.1

/-- A pass over an empty knowledge base changes nothing. -/
theorem onePass_nil (st : AIState) (h : st.knowledge = []) :
    onePass st = Except.ok (st, false) := by
  rcases st with ⟨A, B, M, Mi, S, K⟩
  simp only at h
  subst h
  rfl

/-- Running the guarded mine marks over a duplicate-free list of cells
of the only sentence, none already known: the sentence loses exactly
those cells and that much count, and the knowledge base tracks it. -/
theorem foldl_mineStep_run :
    ∀ (l : List Cell) (st : AIState) (u : Sentence) (upd : Bool),
    st.knowledge = [u] → l.Nodup → (∀ m ∈ l, m ∈ u.cells) →
    (∀ m ∈ l, m ∉ st.mines) →
    ∃ (st1 : AIState) (upd1 : Bool),
      l.foldl mineStep (st, u, [], upd) =
        (st1, ⟨u.cells \ l.toFinset, u.count - l.length⟩, [], upd1) ∧
      st1.knowledge =
        [(⟨u.cells \ l.toFinset, u.count - l.length⟩ : Sentence)] := by
  intro l
  induction l with
  | nil =>
    intro st u upd hk _ _ _
    have hid : (⟨u.cells \ ([] : List Cell).toFinset,
        u.count - (([] : List Cell).length : ℤ)⟩ : Sentence) = u := by
      simp
    exact ⟨st, upd, by rw [List.foldl_nil, hid], by rw [hid]; exact hk⟩
  | cons m ms ih =>
    intro st u upd hk hnd hcell hmine
    obtain ⟨hm_notin, hnd'⟩ := List.nodup_cons.mp hnd
    have hm_cells : m ∈ u.cells := hcell m (List.mem_cons_self m ms)
    have hm_mines : m ∉ st.mines := hmine m (List.mem_cons_self m ms)
    have hstep : mineStep (st, u, [], upd) m =
        (st.mark_mine m, u.mark_mine m, [], true) := by
      unfold mineStep
      rw [if_neg hm_mines]
      rfl
    have hu' : u.mark_mine m = ⟨u.cells.erase m, u.count - 1⟩ := by
      unfold Sentence.mark_mine
      rw [if_pos hm_cells]
    have hk' : (st.mark_mine m).knowledge =
        [(⟨u.cells.erase m, u.count - 1⟩ : Sentence)] := by
      unfold AIState.mark_mine
      dsimp only
      rw [hk, List.map_singleton, hu']
    obtain ⟨st1, upd1, hfold, hk1⟩ := ih (st.mark_mine m)
      ⟨u.cells.erase m, u.count - 1⟩ true hk' hnd'
      (by
        intro x hx
        exact Finset.mem_erase.mpr
          ⟨fun he => hm_notin (he ▸ hx), hcell x (List.mem_cons_of_mem m hx)⟩)
      (by
        intro x hx
        unfold AIState.mark_mine
        dsimp only
        rw [Finset.mem_insert]
        rintro (rfl | hx')
        · exact hm_notin hx
        · exact hmine x (List.mem_cons_of_mem m hx) hx')
    have hsent : (⟨(u.cells.erase m) \ ms.toFinset,
        (u.count - 1) - (ms.length : ℤ)⟩ : Sentence) =
        ⟨u.cells \ (m :: ms).toFinset, u.count - ((m :: ms).length : ℤ)⟩ := by
      have hcells : (u.cells.erase m) \ ms.toFinset =
          u.cells \ (m :: ms).toFinset := by
        rw [List.toFinset_cons]
        ext x
        simp only [Finset.mem_sdiff, Finset.mem_erase, Finset.mem_insert]
        tauto
      have hcount : (u.count - 1) - (ms.length : ℤ) =
          u.count - (((m :: ms).length : ℕ) : ℤ) := by
        simp only [List.length_cons]
        push_cast
        ring
      rw [hcells, hcount]
    refine ⟨st1, upd1, ?_, ?_⟩
    · rw [List.foldl_cons, hstep, hu', hfold, hsent]
    · rw [hk1, hsent]

/-- The same for the guarded safe marks: the count is unchanged. -/
theorem foldl_safeStep_run :
    ∀ (l : List Cell) (st : AIState) (u : Sentence) (upd : Bool),
    st.knowledge = [u] → l.Nodup → (∀ m ∈ l, m ∈ u.cells) →
    (∀ m ∈ l, m ∉ st.safes) →
    ∃ (st1 : AIState) (upd1 : Bool),
      l.foldl safeStep (st, u, [], upd) =
        (st1, ⟨u.cells \ l.toFinset, u.count⟩, [], upd1) ∧
      st1.knowledge = [(⟨u.cells \ l.toFinset, u.count⟩ : Sentence)] := by
  intro l
  induction l with
  | nil =>
    intro st u upd hk _ _ _
    have hid : (⟨u.cells \ ([] : List Cell).toFinset, u.count⟩ : Sentence) =
        u := by
      simp
    exact ⟨st, upd, by rw [List.foldl_nil, hid], by rw [hid]; exact hk⟩
  | cons m ms ih =>
    intro st u upd hk hnd hcell hsafe
    obtain ⟨hm_notin, hnd'⟩ := List.nodup_cons.mp hnd
    have hm_cells : m ∈ u.cells := hcell m (List.mem_cons_self m ms)
    have hm_safes : m ∉ st.safes := hsafe m (List.mem_cons_self m ms)
    have hstep : safeStep (st, u, [], upd) m =
        (st.mark_safe m, u.mark_safe m, [], true) := by
      unfold safeStep
      rw [if_neg hm_safes]
      rfl
    have hu' : u.mark_safe m = ⟨u.cells.erase m, u.count⟩ := by
      unfold Sentence.mark_safe
      rw [if_pos hm_cells]
    have hk' : (st.mark_safe m).knowledge =
        [(⟨u.cells.erase m, u.count⟩ : Sentence)] := by
      unfold AIState.mark_safe
      dsimp only
      rw [hk, List.map_singleton, hu']
    obtain ⟨st1, upd1, hfold, hk1⟩ := ih (st.mark_safe m)
      ⟨u.cells.erase m, u.count⟩ true hk' hnd'
      (by
        intro x hx
        exact Finset.mem_erase.mpr
          ⟨fun he => hm_notin (he ▸ hx), hcell x (List.mem_cons_of_mem m hx)⟩)
      (by
        intro x hx
        unfold AIState.mark_safe
        dsimp only
        rw [Finset.mem_insert]
        rintro (rfl | hx')
        · exact hm_notin hx
        · exact hsafe x (List.mem_cons_of_mem m hx) hx')
    have hcells : (u.cells.erase m) \ ms.toFinset =
        u.cells \ (m :: ms).toFinset := by
      rw [List.toFinset_cons]
      ext x
      simp only [Finset.mem_sdiff, Finset.mem_erase, Finset.mem_insert]
      tauto
    refine ⟨st1, upd1, ?_, ?_⟩
    · rw [List.foldl_cons, hstep, hu', hfold, hcells]
    · rw [hk1, hcells]

/-- Processing the only sentence when it resolves (all mines, or all
safe): it is fully narrowed and then removed, leaving the knowledge
base empty, with the updated flag set. -/
theorem stepSentence_resolving (st : AIState) (u : Sentence) (upd : Bool)
    (hk : st.knowledge = [u]) (hne : u.cells ≠ ∅)
    (hmines : ∀ m ∈ u.cells, m ∉ st.mines)
    (hsafes : ∀ m ∈ u.cells, m ∉ st.safes)
    (hres : (u.cells.card : ℤ) = u.count ∨ u.count = 0) :
    ∃ st2, stepSentence st u [] upd = Except.ok (st2, [], true) ∧
      st2.knowledge = [] := by
  have hcardpos : 0 < u.cells.card :=
    Finset.card_pos.mpr (Finset.nonempty_iff_ne_empty.mpr hne)
  rcases hres with hres | hres
  · have hkm : u.known_mines = u.cells := by
      unfold Sentence.known_mines
      rw [if_pos ⟨hres, by omega⟩]
    obtain ⟨st1, upd1, hfold, hk1⟩ := foldl_mineStep_run (sortCells u.cells)
      st u upd hk (sortCells_nodup _) (fun m hm => mem_sortCells.mp hm)
      (fun m hm => hmines m (mem_sortCells.mp hm))
    have hs1 : (⟨u.cells \ (sortCells u.cells).toFinset,
        u.count - ((sortCells u.cells).length : ℤ)⟩ : Sentence) =
        ⟨∅, 0⟩ := by
      rw [sortCells_toFinset, Finset.sdiff_self, sortCells_length]
      have h0 : u.count - (u.cells.card : ℤ) = 0 := by omega
      rw [h0]
    rw [hs1] at hfold hk1
    unfold stepSentence
    rw [hkm, hfold]
    dsimp only
    have hks : (⟨∅, 0⟩ : Sentence).known_safes = ∅ := by decide
    rw [hks, sortCells_empty, List.foldl_nil]
    dsimp only
    rw [if_pos (show (⟨∅, 0⟩ : Sentence).cells = ∅ from rfl),
      if_pos (show (⟨∅, 0⟩ : Sentence).count = 0 from rfl)]
    refine ⟨_, rfl, ?_⟩
    dsimp only
    rw [hk1]
    simp
  · have hkm : u.known_mines = ∅ := by
      unfold Sentence.known_mines
      rw [if_neg]
      rintro ⟨_, h2⟩
      omega
    obtain ⟨st1, upd1, hfold, hk1⟩ := foldl_safeStep_run (sortCells u.cells)
      st u upd hk (sortCells_nodup _) (fun m hm => mem_sortCells.mp hm)
      (fun m hm => hsafes m (mem_sortCells.mp hm))
    have hs1 : (⟨u.cells \ (sortCells u.cells).toFinset, u.count⟩ :
        Sentence) = ⟨∅, 0⟩ := by
      rw [sortCells_toFinset, Finset.sdiff_self, hres]
    rw [hs1] at hfold hk1
    have hks : u.known_safes = u.cells := by
      unfold Sentence.known_safes
      rw [if_pos ⟨hres, hcardpos⟩]
    unfold stepSentence
    rw [hkm, sortCells_empty, List.foldl_nil]
    dsimp only
    rw [hks, hfold]
    dsimp only
    rw [if_pos (show (⟨∅, 0⟩ : Sentence).cells = ∅ from rfl),
      if_pos (show (⟨∅, 0⟩ : Sentence).count = 0 from rfl)]
    refine ⟨_, rfl, ?_⟩
    dsimp only
    rw [hk1]
    simp

/-- A pass over a single-sentence knowledge base (its cells unresolved)
either resolves the sentence away or changes nothing. -/
theorem onePass_single (st : AIState) (u : Sentence) (hk : st.knowledge = [u])
    (hne : u.cells ≠ ∅) (hmines : ∀ m ∈ u.cells, m ∉ st.mines)
    (hsafes : ∀ m ∈ u.cells, m ∉ st.safes) :
    (∃ stF, onePass st = Except.ok (stF, true) ∧ stF.knowledge = []) ∨
    onePass st = Except.ok (st, false) := by
  by_cases hres : (u.cells.card : ℤ) = u.count ∨ u.count = 0
  · left
    obtain ⟨st2, hstep, hk2⟩ := stepSentence_resolving st u false hk hne
      hmines hsafes hres
    refine ⟨st2, ?_, hk2⟩
    unfold onePass
    rw [hk]
    have hph : phase1 ([u] : List Sentence).length st [u] false =
        Except.ok (st2, true) := by
      show phase1 1 st [u] false = _
      unfold phase1
      rw [hstep]
      rfl
    rw [hph]
    dsimp only
    rcases st2 with ⟨A, B, M, Mi, S, K⟩
    simp only at hk2
    subst hk2
    rfl
  · right
    have hin : Inert u := by
      push_neg at hres
      refine ⟨?_, ?_, hne, hres.1, hres.2⟩
      · unfold Sentence.known_mines
        rw [if_neg]
        rintro ⟨h1, _⟩
        exact hres.1 h1
      · unfold Sentence.known_safes
        rw [if_neg]
        rintro ⟨h1, _⟩
        exact hres.2 h1
    rcases st with ⟨A, B, M, Mi, S, K⟩
    simp only at hk
    subst hk
    unfold onePass
    rw [phase1_inert _ _ _ _ (by
      intro s hs
      rw [List.mem_singleton] at hs
      subst hs
      exact hin)]
    dsimp only
    rw [deriveNew_single]
    rfl

/-- C3 amended: from an engine whose statement list is empty — in
particular on the first observation of a fresh engine — the propagation
loop always terminates normally within three passes; the divergence of
`c3_counterexample` needs a pre-existing inconsistent statement list. -/
theorem c3_amended (st : AIState) (cell : Cell) (count : ℤ)
    (h : st.knowledge = []) :
    ∃ st', add_knowledge 3 st cell count = some (Except.ok st') := by
  unfold add_knowledge
  have hpreK : (preState st cell).knowledge = [] := by
    simp [preState, AIState.mark_safe, h]
  by_cases hu : unknownCells (preState st cell) cell = ∅
  · refine ⟨preState st cell, ?_⟩
    have hing : ingest st cell count = preState st cell := by
      simp only [ingest, if_pos hu]
    rw [hing]
    unfold loopFuel
    rw [onePass_nil (preState st cell) hpreK]
  · have hingK : (ingest st cell count).knowledge =
        [(⟨unknownCells (preState st cell) cell,
           adjustedCount (preState st cell) cell count⟩ : Sentence)] := by
      simp only [ingest, if_neg hu]
      rw [hpreK]
      rfl
    have hmines2 : ∀ m ∈ unknownCells (preState st cell) cell,
        m ∉ (ingest st cell count).mines := by
      intro m hm
      unfold unknownCells at hm
      have h2 := Finset.mem_filter.mp hm
      have hfield : (ingest st cell count).mines = (preState st cell).mines := by
        simp only [ingest]
        split_ifs
        rfl
      rw [hfield]
      exact h2.2.2.1
    have hsafes2 : ∀ m ∈ unknownCells (preState st cell) cell,
        m ∉ (ingest st cell count).safes := by
      intro m hm
      unfold unknownCells at hm
      have h2 := Finset.mem_filter.mp hm
      have hfield : (ingest st cell count).safes = (preState st cell).safes := by
        simp only [ingest]
        split_ifs
        rfl
      rw [hfield]
      exact h2.2.2.2
    rcases onePass_single (ingest st cell count)
      ⟨unknownCells (preState st cell) cell,
       adjustedCount (preState st cell) cell count⟩ hingK hu hmines2 hsafes2
      with ⟨stF, hp, hkF⟩ | hp
    · refine ⟨stF, ?_⟩
      unfold loopFuel
      rw [hp]
      unfold loopFuel
      rw [onePass_nil stF hkF]
    · refine ⟨ingest st cell count, ?_⟩
      unfold loopFuel
      rw [hp]

/-- Witness for C3 amended: the very first observation of a fresh 2 by 2
engine terminates with fuel 3. -/
theorem c3_amended_witness :
    (initState 2 2).knowledge = [] ∧
    ∃ st', add_knowledge 3 (initState 2 2) (0, 0) 0 =
      some (Except.ok st') :=
  ⟨rfl, c3_amended (initState 2 2) (0, 0) 0 rfl⟩
